import Mathlib

/-!
Verification of the Drift Routing & Fact Provenance Engine.

Shallow embedding of the classification protocol and fact-merge algorithm:

* `parseResponse`   — src/unnamed/part_005 (classify-route response validation);
  the JSON.parse step is modelled by taking the already-parsed wrapper record.
* `classifyRoute`   — src/unnamed/part_010 and
  src/src/services/drift/operations/classify-route/index.ts; the external
  LLM call (buildPrompt/callLLM) is modelled by passing the provider reply
  as a parameter.  console.log calls are observability only and elided.
* `calculateCentroid` — src/unnamed/part_011 (execute-route); TypeScript
  `number` is modelled as ℚ (the cited tests use exactly representable values).
* `mergeFacts` and `processEphemeralConversation`
  — src/src/services/drift/ephemeral.ts.

JavaScript value conventions used throughout: a `string | null | undefined`
field is an `Option String` and `x || d` / truthiness tests are modelled by
`jsStr` (the empty string is falsy); `x || d` on numbers is `jsNumOr`
(0 is falsy).  `parseInt(s, 10)` is `jsParseInt`.
-/

set_option maxRecDepth 8192

namespace DriftOS

/-- The three routing actions (`RouteAction` in drift types). -/
inductive RouteAction
  | STAY
  | ROUTE
  | BRANCH
deriving DecidableEq, Repr

/-- Message roles. -/
inductive Role
  | user
  | assistant
deriving DecidableEq, Repr

/-- JavaScript truthiness for an optional string: `null`, `undefined` and the
empty string are falsy.  `jsStr x = some s` iff `x` holds a truthy string. -/
def jsStr (x : Option String) : Option String :=
  match x with
  | some s => if s = "" then none else some s
  | none => none

/-- `x || d` on an optional string. -/
def jsStrOr (x : Option String) (d : String) : String :=
  (jsStr x).getD d

/-- `x || d` on an optional number (0 is falsy). -/
def jsNumOr (x : Option ℚ) (d : ℚ) : ℚ :=
  match x with
  | some q => if q = 0 then d else q
  | none => d

/-- Digits of a decimal numeral to a natural number. -/
def digitsToNat (ds : List Char) : Nat :=
  ds.foldl (fun acc c => acc * 10 + (c.toNat - 48)) 0

/-- JavaScript `parseInt(s, 10)`: skip leading whitespace, optional sign,
then the longest digit prefix; `none` models `NaN`. -/
def jsParseInt (s : String) : Option Int :=
  let cs := s.toList.dropWhile (fun c => c.isWhitespace)
  let sr : Int × List Char :=
    match cs with
    | '-' :: r => (-1, r)
    | '+' :: r => (1, r)
    | r => (1, r)
  let ds := sr.2.takeWhile (fun c => c.isDigit)
  if ds.isEmpty then none
  else some (sr.1 * (digitsToNat ds : Int))

/-- One candidate value supplied by the classifier for a fact key
(`classification.facts[].values[]`; `supersedes` is normalized to an array). -/
structure FactValueInput where
  value : String
  confidence : ℚ
  supersedes : List String
deriving DecidableEq, Repr

/-- One extracted fact from the classifier (`classification.facts[]`). -/
structure ExtractedFact where
  key : String
  values : List FactValueInput
  isUpdate : Bool
deriving DecidableEq, Repr

/-- The `decision` object of the parsed provider response. -/
structure ParsedDecision where
  action : RouteAction
  targetBranchId : Option String
  newBranchTopic : Option String
  reason : Option String
  confidence : Option ℚ
deriving DecidableEq, Repr

/-- The parsed top-level provider response (`JSON.parse(response)` in
part_005): a `decision`, an optional `branchContext`, and a `facts` field
that is `none` when it is not an array. -/
structure LLMWrapper where
  decision : ParsedDecision
  branchContext : Option String
  facts : Option (List ExtractedFact)
deriving DecidableEq, Repr

/-- `DriftContext.classification` (drift types, part_002). -/
structure Classification where
  action : RouteAction
  targetBranchId : Option String
  newBranchTopic : Option String
  reason : String
  confidence : ℚ
  branchContext : Option String
  facts : Option (List ExtractedFact)
deriving DecidableEq, Repr

/-- The `{ id, summary }` shape of the other-branch candidate list handed to
`parseResponse`. -/
structure BranchRef where
  id : String
  summary : String
deriving DecidableEq, Repr

/-- Mutable locals of `parseResponse`: `action`, `targetBranchId`, and the
(possibly reassigned) `parsed.newBranchTopic`. -/
structure PRState where
  action : RouteAction
  target : Option String
  topic : Option String
deriving DecidableEq, Repr

/-- part_005 rule: `BRANCH` with a falsy `newBranchTopic` gets the fixed
fallback label. -/
def prRule1 (st : PRState) : PRState :=
  if st.action = RouteAction.BRANCH ∧ st.topic = none then
    { st with topic := some "New Topic" }
  else st

/-- part_005 rule: a `ROUTE` with a truthy target is interpreted as a 1-based
index into the other-branch list; an unparseable or out-of-range index falls
back to `BRANCH`. -/
def prRule2 (otherBranches : List BranchRef) (st : PRState) : PRState :=
  match st.action, st.target with
  | RouteAction.ROUTE, some t =>
    match jsParseInt t with
    | some n =>
      if 1 ≤ n ∧ n ≤ (otherBranches.length : Int) then
        { st with target := (otherBranches.get? (n - 1).toNat).map BranchRef.id }
      else
        { st with action := RouteAction.BRANCH, target := none,
                  topic := if st.topic = none then some "New Topic" else st.topic }
    | none =>
      { st with action := RouteAction.BRANCH, target := none,
                topic := if st.topic = none then some "New Topic" else st.topic }
  | _, _ => st

/-- part_005 rule: `ROUTE` without a (truthy) target falls back to `BRANCH`
(the target variable itself is not reassigned, as in the source). -/
def prRule2b (st : PRState) : PRState :=
  if st.action = RouteAction.ROUTE ∧ jsStr st.target = none then
    { st with action := RouteAction.BRANCH,
              topic := if st.topic = none then some "New Topic" else st.topic }
  else st

/-- part_005 rule: a `ROUTE` that targets the current branch is a `STAY`. -/
def prRule3 (currentBranchId : Option String) (st : PRState) : PRState :=
  if st.action = RouteAction.ROUTE ∧ st.target = currentBranchId then
    { st with action := RouteAction.STAY, target := none }
  else st

/-- `parseResponse` of src/unnamed/part_005, for a call that supplies the
other-branch candidate list (as `classifyRoute` always does). -/
def parseResponse (wrapper : LLMWrapper) (currentBranchId : Option String)
    (otherBranches : List BranchRef) : Classification :=
  let parsed := wrapper.decision
  let st0 : PRState :=
    ⟨parsed.action, jsStr parsed.targetBranchId, jsStr parsed.newBranchTopic⟩
  let st := prRule3 currentBranchId (prRule2b (prRule2 otherBranches (prRule1 st0)))
  { action := st.action
    targetBranchId := st.target
    newBranchTopic := jsStr st.topic
    reason := jsStrOr parsed.reason "Unknown"
    confidence := jsNumOr parsed.confidence (1 / 2)
    branchContext := some (jsStrOr wrapper.branchContext "general conversation")
    facts := some (wrapper.facts.getD []) }

/-- `BranchSummary` of the drift types (part_002), as built by the ephemeral
loop and read by `classifyRoute`. -/
structure BranchSummary where
  id : String
  summary : String
  context : Option String
  messageCount : Nat
  isCurrentBranch : Bool
  factKeys : List String
deriving DecidableEq, Repr

/-- Token usage counters reported by the provider. -/
structure TokenUsage where
  inputTokens : Nat
  outputTokens : Nat
  totalTokens : Nat
deriving DecidableEq, Repr

/-- The provider reply consumed by `classifyRoute` (the `callLLM` result with
its content already JSON-parsed into an `LLMWrapper`). -/
structure LLMReply where
  wrapper : LLMWrapper
  usage : TokenUsage
  model : String
deriving DecidableEq, Repr

/-- The fields `classifyRoute` writes into the drift context: the
classification, token usage and model (absent when no external call is made),
and the appended reason code. -/
structure ClassifyOutcome where
  classification : Classification
  tokenUsage : Option TokenUsage
  llmModel : Option String
  reasonCode : String
deriving DecidableEq, Repr

/-- Lowercase action name used in the `classified_*` reason code. -/
def actionName : RouteAction → String
  | RouteAction.STAY => "stay"
  | RouteAction.ROUTE => "route"
  | RouteAction.BRANCH => "branch"

/-- Project a branch summary to the `{ id, summary }` candidate shape. -/
def toBranchRef (b : BranchSummary) : BranchRef :=
  ⟨b.id, b.summary⟩

/-- `classifyRoute` of src/unnamed/part_010 (= classify-route/index.ts with
fact extraction threaded through).  The prompt construction and provider call
only shape `reply`; the assistant short-circuit returns before any call, so
its outcome carries no token usage and is independent of `reply`. -/
def classifyRoute (role : Role) (content : String) (branches : List BranchSummary)
    (reply : LLMReply) : ClassifyOutcome :=
  let currentBranch := branches.find? (fun b => b.isCurrentBranch)
  let otherBranches := branches.filter (fun b => !b.isCurrentBranch)
  if role = Role.assistant then
    { classification :=
        { action := RouteAction.STAY, targetBranchId := none, newBranchTopic := none,
          reason := "Assistant messages stay in current branch", confidence := 1,
          branchContext := none, facts := none }
      tokenUsage := none
      llmModel := none
      reasonCode := "assistant_auto_stay" }
  else
    let classification :=
      parseResponse reply.wrapper (currentBranch.map (fun b => b.id))
        (otherBranches.map toBranchRef)
    if currentBranch = none ∧ otherBranches = [] ∧
        classification.action ≠ RouteAction.BRANCH then
      { classification :=
          { action := RouteAction.BRANCH
            targetBranchId := none
            newBranchTopic :=
              some (jsStrOr classification.newBranchTopic (content.take 100))
            reason := jsStrOr (some classification.reason) "First message in conversation"
            confidence := classification.confidence
            branchContext := none
            facts := none }
        tokenUsage := some reply.usage
        llmModel := some reply.model
        reasonCode := "first_message_forced_branch" }
    else
      { classification := classification
        tokenUsage := some reply.usage
        llmModel := some reply.model
        reasonCode := "classified_" ++ actionName classification.action }

/-- `calculateCentroid` of src/unnamed/part_011 (execute-route): running
average `old + (next - old) / n`, with the new embedding used as-is when the
old centroid is empty.  `newEmbedding[i]!` is modelled with default 0 (it is
only read at indices below the old centroid's length). -/
def calculateCentroid (oldCentroid newEmbedding : List ℚ) (messageCount : ℚ) :
    List ℚ :=
  if oldCentroid.length = 0 then newEmbedding
  else oldCentroid.mapIdx (fun i val =>
    val + (newEmbedding.getD i 0 - val) / messageCount)

/-- Lifecycle status of a fact value entry. -/
inductive FactStatus
  | active
  | superseded
  | removed
deriving DecidableEq, Repr

/-- One provenance-tracked value entry of a branch fact key
(`EphemeralBranch['facts'][key][i]`). -/
structure FactValue where
  value : String
  messageId : String
  confidence : ℚ
  status : FactStatus
  supersededBy : Option String
deriving DecidableEq, Repr

/-- A branch's fact map `Record<string, FactValue[]>`: an insertion-ordered
association list (JavaScript objects hold at most one entry per key). -/
abbrev FactMap := List (String × List FactValue)

/-- JavaScript property read `existingFacts[key]`. -/
def lookupFacts (m : FactMap) (k : String) : Option (List FactValue) :=
  (m.find? (fun p => p.1 == k)).map (fun p => p.2)

/-- JavaScript property write `existingFacts[key] = l`: replace the entry
when the key is present, else append it. -/
def setFacts : FactMap → String → List FactValue → FactMap
  | [], k, l => [(k, l)]
  | p :: rest, k, l => if p.1 = k then (k, l) :: rest else p :: setFacts rest k l

/-- Fresh `active` entries built from the supplied values
(`fact.values.map(...)` in `mergeFacts`). -/
def freshEntries (vals : List FactValueInput) (mid : String) : List FactValue :=
  vals.map (fun v => ⟨v.value, mid, v.confidence, FactStatus.active, none⟩)

/-- Mark an entry superseded, stamped with the originating message id
(`existingValues[targetIndex].status = 'superseded'; ... = messageId`). -/
def markSuperseded (mid : String) (e : FactValue) : FactValue :=
  { e with status := FactStatus.superseded, supersededBy := some mid }

/-- The `findIndex` predicate of the supersession step: exact value text
match on an entry that is still active. -/
def isActiveMatch (target : String) (e : FactValue) : Bool :=
  e.value == target && e.status == FactStatus.active

/-- One supersede request (`newValue.supersedes[i]` in `mergeFacts`): mark
the first active entry with exactly the named value text as superseded; a
non-existent or inactive target leaves the list unchanged (hallucination
guard).  Structural form of `findIndex` followed by in-place mutation. -/
def applySupersede (mid target : String) : List FactValue → List FactValue
  | [] => []
  | e :: rest =>
    if isActiveMatch target e then markSuperseded mid e :: rest
    else e :: applySupersede mid target rest

/-- Process one supplied value in the update path of `mergeFacts`: apply its
supersedes list in order, then append a fresh active entry unless an entry
with the exact same value text already exists (duplicate guard). -/
def mergeNewValue (mid : String) (l : List FactValue) (nv : FactValueInput) :
    List FactValue :=
  let l1 := nv.supersedes.foldl (fun acc t => applySupersede mid t acc) l
  if l1.any (fun ev => ev.value == nv.value) then l1
  else l1 ++ [⟨nv.value, mid, nv.confidence, FactStatus.active, none⟩]

/-- The update path for one extracted fact
(`for (const newValue of fact.values)`). -/
def mergeValsUpdate (mid : String) (l : List FactValue)
    (vals : List FactValueInput) : List FactValue :=
  vals.foldl (mergeNewValue mid) l

/-- Merge one extracted fact into the map: the update path when `isUpdate`
is set and the key already exists (an existing empty array is truthy too),
otherwise a fresh entry list replacing or creating the key. -/
def mergeFact (mid : String) (m : FactMap) (f : ExtractedFact) : FactMap :=
  match lookupFacts m f.key with
  | some l =>
    if f.isUpdate then setFacts m f.key (mergeValsUpdate mid l f.values)
    else setFacts m f.key (freshEntries f.values mid)
  | none => setFacts m f.key (freshEntries f.values mid)

/-- `mergeFacts` of src/src/services/drift/ephemeral.ts; the in-place
mutation of `existingFacts` is modelled by returning the updated map. -/
def mergeFacts (existingFacts : FactMap) (newFacts : Option (List ExtractedFact))
    (messageId : String) : FactMap :=
  match newFacts with
  | none => existingFacts
  | some fs =>
    if fs = [] then existingFacts
    else fs.foldl (mergeFact messageId) existingFacts

/-- How one fact value entry can change during a single `mergeFacts` call
with originating message `mid`: it is untouched, or an active entry is
marked superseded and stamped with `mid`. -/
def Evolves (mid : String) (e e' : FactValue) : Prop :=
  e' = e ∨ (e.status = FactStatus.active ∧ e' = markSuperseded mid e)

/-- The active value texts recorded for a key (used to state replay
idempotence). -/
def activeValues (m : FactMap) (k : String) : List String :=
  (((lookupFacts m k).getD []).filter
    (fun e => e.status == FactStatus.active)).map FactValue.value

/-- Active entries with a given value text, counted. -/
def activeCountT (l : List FactValue) (t : String) : Nat :=
  l.countP (isActiveMatch t)

/-- Input message for the ephemeral variant (`InputMessage`). -/
structure InputMessage where
  role : Role
  content : String
deriving DecidableEq, Repr

/-- In-memory branch record (`EphemeralBranch` in ephemeral.ts); `createdAt`
(a wall-clock `Date`) is elided. -/
structure EphemeralBranch where
  id : String
  topic : String
  context : Option String
  parentId : Option String
  messageCount : Nat
  facts : FactMap
  lastFactExtractionIndex : Option Nat
deriving DecidableEq, Repr

/-- In-memory message record (`EphemeralMessage`).  `branchId` is optional
because the source's non-null assertion `currentBranchId!` lets `null` flow
into the field for a leading assistant message.  The constant `driftAction`
(always `'STAY'` in this variant) and the observability `metadata` echo of
the raw response (never read back) are elided. -/
structure EphemeralMessage where
  id : String
  role : Role
  content : String
  branchId : Option String
  branchTopic : String
  action : RouteAction
deriving DecidableEq, Repr

/-- The returned state of `processEphemeralConversation` (`EphemeralState`;
the source marks `routingTokenUsage`/`routingModel` optional but the return
always populates the usage record). -/
structure EphemeralState where
  branches : List EphemeralBranch
  messages : List EphemeralMessage
  currentBranchId : String
  currentBranchTopic : String
  lastProcessedIndex : Nat
  routingTokenUsage : TokenUsage
  routingModel : Option String
deriving DecidableEq, Repr

/-- The loop-local mutable state of the processing loop (`branches`,
`allMessages`, `currentBranchId` and the token/model accumulators). -/
structure LoopState where
  branches : List EphemeralBranch
  messages : List EphemeralMessage
  currentBranchId : Option String
  inputTokens : Nat
  outputTokens : Nat
  totalTokens : Nat
  routingModel : Option String
deriving DecidableEq, Repr

/-- `branches.find(b => b.id === currentBranchId)`. -/
def findBranch (branches : List EphemeralBranch) (cur : Option String) :
    Option EphemeralBranch :=
  branches.find? (fun b => some b.id == cur)

/-- In-place mutation of the branch object returned by `branches.find`: the
first branch whose id matches is replaced by its update. -/
def updateBranch (f : EphemeralBranch → EphemeralBranch) (cur : Option String) :
    List EphemeralBranch → List EphemeralBranch
  | [] => []
  | b :: rest =>
    if some b.id == cur then f b :: rest
    else b :: updateBranch f cur rest

/-- `branches.find(b => b.id === cur)?.topic || d`. -/
def branchTopicOr (branches : List EphemeralBranch) (cur : Option String)
    (d : String) : String :=
  jsStrOr ((findBranch branches cur).map EphemeralBranch.topic) d

/-- The fresh facts record built on the `BRANCH` path of the loop
(`factsRecord[fact.key] = fact.values.map(...)`). -/
def factsRecordOf (facts : Option (List ExtractedFact)) (mid : String) : FactMap :=
  match facts with
  | none => []
  | some fs => fs.foldl (fun r f => setFacts r f.key (freshEntries f.values mid)) []

/-- The token-usage and routing-model accumulation step of the loop body
(`if (result.tokenUsage) ...; if (result.llmModel && !routingModel) ...`). -/
def accumUsage (outcome : ClassifyOutcome) (s : LoopState) : LoopState :=
  let s1 := match outcome.tokenUsage with
    | some u =>
      { s with
          inputTokens := s.inputTokens + u.inputTokens,
          outputTokens := s.outputTokens + u.outputTokens,
          totalTokens := s.totalTokens + u.totalTokens }
    | none => s
  if (jsStr outcome.llmModel).isSome ∧ jsStr s1.routingModel = none
  then { s1 with routingModel := outcome.llmModel }
  else s1

/-- The per-action branch-selection step of the loop body: returns the
updated loop state together with the resolved `targetBranchId` and
`branchTopic` locals. -/
def routeStep (conversationId messageId : String) (cls : Classification)
    (content : String) (s : LoopState) : LoopState × Option String × String :=
  if cls.action = RouteAction.BRANCH then
    let branchIndex := s.branches.length
    let newBranchId := conversationId ++ "-branch-" ++ toString branchIndex
    let newBranch : EphemeralBranch :=
      { id := newBranchId
        topic := jsStrOr cls.newBranchTopic (content.take 100)
        context := cls.branchContext
        parentId := s.currentBranchId
        messageCount := 0
        facts := factsRecordOf cls.facts messageId
        lastFactExtractionIndex := some 1 }
    ({ s with
        branches := s.branches ++ [newBranch],
        currentBranchId := some newBranchId },
     some newBranchId, newBranch.topic)
  else if cls.action = RouteAction.ROUTE ∧ (jsStr cls.targetBranchId).isSome then
    match s.branches.find? (fun b => some b.id == cls.targetBranchId) with
    | some targetBranch =>
      let branchMessageCount :=
        (s.messages.filter (fun mm => mm.branchId == some targetBranch.id)).length
      ({ s with
          branches := updateBranch (fun b =>
              { b with
                  context := cls.branchContext,
                  facts := mergeFacts b.facts cls.facts messageId,
                  lastFactExtractionIndex := some (branchMessageCount + 1) })
            (some targetBranch.id) s.branches,
          currentBranchId := some targetBranch.id },
       some targetBranch.id, targetBranch.topic)
    | none =>
      (s, s.currentBranchId, branchTopicOr s.branches s.currentBranchId "Unknown")
  else
    match findBranch s.branches s.currentBranchId with
    | some currentBranch =>
      let branchMessageCount :=
        (s.messages.filter (fun mm => mm.branchId == s.currentBranchId)).length
      ({ s with
          branches := updateBranch (fun b =>
              { b with
                  context := cls.branchContext,
                  facts := mergeFacts b.facts cls.facts messageId,
                  lastFactExtractionIndex := some (branchMessageCount + 1) })
            s.currentBranchId s.branches },
       s.currentBranchId, jsStrOr (some currentBranch.topic) "Unknown")
    | none => (s, s.currentBranchId, "Unknown")

/-- One iteration of the processing loop of `processEphemeralConversation`
for the message at absolute index `messageIndex`.  The prompt construction,
recent-message window and provider call are modelled by the `oracle`
supplying the parsed reply for that message index. -/
def processMessage (conversationId : String) (oracle : Nat → LLMReply)
    (messageIndex : Nat) (msg : InputMessage) (s : LoopState) : LoopState :=
  let messageId := conversationId ++ "-msg-" ++ toString messageIndex
  if msg.role = Role.assistant then
    let ephemeralMsg : EphemeralMessage :=
      { id := messageId, role := Role.assistant, content := msg.content,
        branchId := s.currentBranchId,
        branchTopic := branchTopicOr s.branches s.currentBranchId "Unknown",
        action := RouteAction.STAY }
    { s with
        messages := s.messages ++ [ephemeralMsg],
        branches :=
          updateBranch (fun b => { b with messageCount := b.messageCount + 1 })
            s.currentBranchId s.branches }
  else
    let summaries := s.branches.map (fun b =>
      BranchSummary.mk b.id b.topic b.context b.messageCount
        (some b.id == s.currentBranchId) (b.facts.map Prod.fst))
    let outcome := classifyRoute Role.user msg.content summaries (oracle messageIndex)
    let cls := outcome.classification
    let s2 := accumUsage outcome s
    let step := routeStep conversationId messageId cls msg.content s2
    let s3 := step.1
    let ephemeralMsg : EphemeralMessage :=
      { id := messageId, role := Role.user, content := msg.content,
        branchId := step.2.1, branchTopic := step.2.2, action := cls.action }
    { s3 with
        branches :=
          updateBranch (fun b => { b with messageCount := b.messageCount + 1 })
            step.2.1 s3.branches,
        messages := s3.messages ++ [ephemeralMsg] }

/-- The `for` loop of `processEphemeralConversation`, indexed by the absolute
message index. -/
def runLoop (conversationId : String) (oracle : Nat → LLMReply) :
    Nat → List InputMessage → LoopState → LoopState
  | _, [], s => s
  | i, msg :: rest, s =>
    runLoop conversationId oracle (i + 1) rest
      (processMessage conversationId oracle i msg s)

/-- `processEphemeralConversation` of ephemeral.ts.  `configRoutingModel`
stands for `getConfig().DRIFT_ROUTING_MODEL`; `oracle` supplies the parsed
classifier reply per absolute message index (the conversation's requests are
deterministic per message position).  Logging and wall-clock values are
elided. -/
def processEphemeralConversation (messages : List InputMessage)
    (conversationId : String) (previousState : Option EphemeralState)
    (configRoutingModel : Option String) (oracle : Nat → LLMReply) :
    EphemeralState :=
  let branches := (previousState.map EphemeralState.branches).getD []
  let allMessages := (previousState.map EphemeralState.messages).getD []
  let currentBranchId : Option String :=
    previousState.map EphemeralState.currentBranchId
  let startIndex := (previousState.map EphemeralState.lastProcessedIndex).getD 0
  let inTok := (previousState.map (fun p => p.routingTokenUsage.inputTokens)).getD 0
  let outTok := (previousState.map (fun p => p.routingTokenUsage.outputTokens)).getD 0
  let totTok := (previousState.map (fun p => p.routingTokenUsage.totalTokens)).getD 0
  let routingModel0 := previousState.bind EphemeralState.routingModel
  let routingModel1 :=
    if jsStr routingModel0 = none then configRoutingModel else routingModel0
  let s0 : LoopState :=
    ⟨branches, allMessages, currentBranchId, inTok, outTok, totTok, routingModel1⟩
  let messagesToProcess := messages.drop startIndex
  let sEnd := runLoop conversationId oracle startIndex messagesToProcess s0
  let final :=
    if sEnd.currentBranchId = none ∧ sEnd.branches = [] then
      { sEnd with
          branches := sEnd.branches ++
            [⟨conversationId ++ "-branch-" ++ toString (0 : Nat), "New Conversation",
              some "new conversation", none, 0, [], some 0⟩],
          currentBranchId := some (conversationId ++ "-branch-" ++ toString (0 : Nat)) }
    else if sEnd.currentBranchId = none then
      { sEnd with currentBranchId := sEnd.branches.head?.map EphemeralBranch.id }
    else sEnd
  { branches := final.branches
    messages := final.messages
    currentBranchId := final.currentBranchId.getD ""
    currentBranchTopic := branchTopicOr final.branches final.currentBranchId "Unknown"
    lastProcessedIndex := messages.length
    routingTokenUsage := ⟨final.inputTokens, final.outputTokens, final.totalTokens⟩
    routingModel := final.routingModel }

/-- A classifier reply whose decision is `BRANCH` with no topic suggestion. -/
def branchNoTopicReply : LLMReply :=
  ⟨⟨⟨RouteAction.BRANCH, none, none, some "looks new", some 1⟩, none, none⟩,
    ⟨1, 2, 3⟩, "m"⟩

/-- A classifier reply whose decision is `STAY` with no topic suggestion. -/
def stayNoTopicReply : LLMReply :=
  ⟨⟨⟨RouteAction.STAY, none, none, some "keep going", some 1⟩, none, none⟩,
    ⟨1, 2, 3⟩, "m"⟩

/-- A pre-populated fact map with one active entry at key `"k"`. -/
def c6PriorMap : FactMap :=
  [("k", [⟨"a", "m0", 1, FactStatus.active, none⟩])]

/-- A payload re-asserting key `"k"` with `isUpdate` false. -/
def c6FreshPayload : List ExtractedFact :=
  [⟨"k", [⟨"b", 1, []⟩], false⟩]

/-- A payload that introduces two values for a fresh key, the second
superseding the first. -/
def c4SelfPayload : List ExtractedFact :=
  [⟨"k", [⟨"a", 1, []⟩, ⟨"b", 1, ["a"]⟩], true⟩]

/-- The per-key preservation relation of a merge: the old entry list is an
`Evolves` image of a prefix of the new one (old entries keep their position,
value, message id and confidence; only active entries may have become
superseded; new entries are only appended). -/
def Preserves (mid : String) (old cur : List FactValue) : Prop :=
  ∃ l' ext, cur = l' ++ ext ∧ List.Forall₂ (Evolves mid) old l'

/-- Extension of a branch list across loop iterations: old branches keep
their position, id and topic; any branch added at position `j` carries the
deterministic id derived from the conversation id and `j`. -/
def BranchesExtend (conv : String) (bs bs' : List EphemeralBranch) : Prop :=
  bs.length ≤ bs'.length ∧
  (∀ j (hj : j < bs.length) (hj2 : j < bs'.length),
    (bs'.get ⟨j, hj2⟩).id = (bs.get ⟨j, hj⟩).id ∧
    (bs'.get ⟨j, hj2⟩).topic = (bs.get ⟨j, hj⟩).topic) ∧
  (∀ j (hj2 : j < bs'.length), bs.length ≤ j →
    (bs'.get ⟨j, hj2⟩).id = conv ++ "-branch-" ++ toString j)

/-- The loop state an incremental call starts from (the initialization block
of `processEphemeralConversation` applied to a previous state). -/
def loopInit (prev : EphemeralState) (cfg : Option String) : LoopState :=
  ⟨prev.branches, prev.messages, some prev.currentBranchId,
   prev.routingTokenUsage.inputTokens, prev.routingTokenUsage.outputTokens,
   prev.routingTokenUsage.totalTokens,
   if jsStr prev.routingModel = none then cfg else prev.routingModel⟩

/-! Basic facts about the JavaScript value helpers. -/

theorem jsStr_idem (x : Option String) : jsStr (jsStr x) = jsStr x := by
  cases x with
  | none => rfl
  | some s =>
    by_cases h : s = "" <;> simp [jsStr, h]

theorem jsStr_eq_some {x : Option String} {t : String} (h : jsStr x = some t) :
    x = some t ∧ t ≠ "" := by
  cases x with
  | none => simp [jsStr] at h
  | some s =>
    by_cases hs : s = "" <;> simp [jsStr, hs] at h
    exact ⟨by rw [h], by rw [← h]; exact hs⟩

theorem jsStrOr_some {x : Option String} {t : String} (h : jsStr x = some t)
    (d : String) : jsStrOr x d = t := by
  simp [jsStrOr, h]

theorem jsStrOr_none {x : Option String} (h : jsStr x = none) (d : String) :
    jsStrOr x d = d := by
  simp [jsStrOr, h]

/-- C9: for every assistant-role message, `classifyRoute` returns action
`STAY` with confidence 1.0 and no token usage, and the outcome does not
depend on the classifier reply (no external call is consulted), regardless of
content and branch list. -/
theorem c9_assistant_short_circuit (content : String)
    (branches : List BranchSummary) (r r' : LLMReply) :
    (classifyRoute Role.assistant content branches r).classification.action =
        RouteAction.STAY ∧
    (classifyRoute Role.assistant content branches r).classification.confidence = 1 ∧
    (classifyRoute Role.assistant content branches r).tokenUsage = none ∧
    classifyRoute Role.assistant content branches r =
      classifyRoute Role.assistant content branches r' := by
  refine ⟨?_, ?_, ?_, ?_⟩ <;> simp [classifyRoute]

/-- C7: with a positive message count and equal-length vectors,
`calculateCentroid` is the element-wise running average
`old[i] + (v[i] - old[i]) / n`, and an empty old centroid returns the new
embedding unchanged. -/
theorem c7_centroid_running_average (old v : List ℚ) (n : ℚ) (hn : 0 < n)
    (hlen : old.length = v.length) :
    calculateCentroid old v n =
      List.zipWith (fun a b => a + (b - a) / n) old v ∧
    ∀ w : List ℚ, calculateCentroid [] w n = w := by
  constructor
  · by_cases h0 : old.length = 0
    · have ho : old = [] := List.length_eq_zero.mp h0
      have hv : v = [] := List.length_eq_zero.mp (by omega)
      subst ho; subst hv
      simp [calculateCentroid]
    · have hcc : calculateCentroid old v n =
          old.mapIdx (fun i val => val + (v.getD i 0 - val) / n) := by
        simp [calculateCentroid, h0]
      rw [hcc]
      apply List.ext_get
      · simp [List.length_mapIdx, List.length_zipWith, ← hlen]
      · intro i h1 h2
        have hi : i < old.length := by
          simpa [List.length_mapIdx] using h1
        have hiv : i < v.length := by omega
        rw [List.get_mapIdx _ _ _ hi]
        rw [List.get_zipWith]
        rw [List.getD_eq_get v 0 hiv]
  · intro w
    simp [calculateCentroid]

/-- C7 witness: the cited concrete instances, via
`c7_centroid_running_average`. -/
theorem c7_centroid_witness :
    (0 : ℚ) < 2 ∧ ([(1 : ℚ), 2, 3]).length = ([(2 : ℚ), 4, 6]).length ∧
    calculateCentroid [(1 : ℚ), 2, 3] [2, 4, 6] 2 = [3 / 2, 3, 9 / 2] ∧
    calculateCentroid ([] : List ℚ) [(5 : ℚ)] 1 = [(5 : ℚ)] := by
  refine ⟨by norm_num, rfl, ?_, ?_⟩
  · have h := (c7_centroid_running_average [(1 : ℚ), 2, 3] [2, 4, 6] 2
      (by norm_num) rfl).1
    rw [h]
    norm_num
  · exact (c7_centroid_running_average [] [] 1 one_pos rfl).2 [(5 : ℚ)]


/-- C1 counterexample: on a first message (no branches) where the classifier
returned `BRANCH` with no topic suggestion, the resulting new-branch topic is
the fixed fallback label `"New Topic"`, not the 100-character prefix of the
message content as the claim states. -/
theorem c1_first_message_topic_counterexample :
    jsStr branchNoTopicReply.wrapper.decision.newBranchTopic = none ∧
    (classifyRoute Role.user "planning a trip" [] branchNoTopicReply).classification.newBranchTopic ≠
      some (("planning a trip" : String).take 100) ∧
    (classifyRoute Role.user "planning a trip" [] branchNoTopicReply).classification.newBranchTopic =
      some "New Topic" := by
  refine ⟨rfl, ?_, ?_⟩ <;> decide

theorem jsStr_some_of_ne {s : String} (h : s ≠ "") : jsStr (some s) = some s := by
  simp [jsStr, h]

/-- With no other-branch candidates, `parseResponse` keeps a `STAY` decision
(with its optional topic) and turns both `ROUTE` and `BRANCH` decisions into
`BRANCH` with the supplied topic or the fixed fallback label. -/
theorem parseResponse_nil_spec (w : LLMWrapper) (cur : Option String) :
    (w.decision.action = RouteAction.STAY →
      (parseResponse w cur []).action = RouteAction.STAY ∧
      (parseResponse w cur []).newBranchTopic = jsStr w.decision.newBranchTopic) ∧
    (w.decision.action ≠ RouteAction.STAY →
      (parseResponse w cur []).action = RouteAction.BRANCH ∧
      (parseResponse w cur []).newBranchTopic =
        some (jsStrOr w.decision.newBranchTopic "New Topic")) := by
  rcases w with ⟨⟨a, tg, tp, rs, cf⟩, bc, fs⟩
  have hNT : jsStr (some "New Topic") = some "New Topic" := rfl
  have hfb : ∀ x : Option String,
      jsStr (if jsStr x = none then some "New Topic" else jsStr x) =
        some (jsStrOr x "New Topic") := by
    intro x
    rcases hx : jsStr x with _ | t
    · simp [hx, hNT, jsStrOr_none hx]
    · simp [hx, jsStr_some_of_ne (jsStr_eq_some hx).2, jsStrOr_some hx]
  cases a with
  | STAY =>
    refine ⟨fun _ => ⟨rfl, ?_⟩, fun h => absurd rfl h⟩
    exact jsStr_idem tp
  | BRANCH =>
    refine ⟨fun h => (nomatch h), fun _ => ?_⟩
    have h1 : prRule1 ⟨RouteAction.BRANCH, jsStr tg, jsStr tp⟩ =
        ⟨RouteAction.BRANCH, jsStr tg,
          if jsStr tp = none then some "New Topic" else jsStr tp⟩ := by
      rcases htp : jsStr tp with _ | t <;> simp [prRule1, htp]
    have hchain : parseResponse ⟨⟨RouteAction.BRANCH, tg, tp, rs, cf⟩, bc, fs⟩ cur [] =
        { action := RouteAction.BRANCH
          targetBranchId := jsStr tg
          newBranchTopic :=
            jsStr (if jsStr tp = none then some "New Topic" else jsStr tp)
          reason := jsStrOr rs "Unknown"
          confidence := jsNumOr cf (1 / 2)
          branchContext := some (jsStrOr bc "general conversation")
          facts := some (fs.getD []) } := by
      simp only [parseResponse, h1]
      rfl
    rw [hchain]
    exact ⟨rfl, hfb tp⟩
  | ROUTE =>
    refine ⟨fun h => (nomatch h), fun _ => ?_⟩
    have h1 : prRule1 ⟨RouteAction.ROUTE, jsStr tg, jsStr tp⟩ =
        ⟨RouteAction.ROUTE, jsStr tg, jsStr tp⟩ := by
      simp [prRule1]
    have h23 : prRule2b (prRule2 [] ⟨RouteAction.ROUTE, jsStr tg, jsStr tp⟩) =
        ⟨RouteAction.BRANCH,
          (prRule2 [] ⟨RouteAction.ROUTE, jsStr tg, jsStr tp⟩).target,
          if jsStr tp = none then some "New Topic" else jsStr tp⟩ ∧
        jsStr (prRule2 [] ⟨RouteAction.ROUTE, jsStr tg, jsStr tp⟩).target = none := by
      rcases htg : jsStr tg with _ | t
      · have h2 : prRule2 [] ⟨RouteAction.ROUTE, none, jsStr tp⟩ =
            ⟨RouteAction.ROUTE, none, jsStr tp⟩ := rfl
        rw [h2]
        exact ⟨by simp [prRule2b, jsStr], rfl⟩
      · rcases hpi : jsParseInt t with _ | m
        · have h2 : prRule2 [] ⟨RouteAction.ROUTE, some t, jsStr tp⟩ =
              ⟨RouteAction.BRANCH, none,
                if jsStr tp = none then some "New Topic" else jsStr tp⟩ := by
            simp only [prRule2, hpi]
          rw [h2]
          refine ⟨?_, rfl⟩
          rcases htp : jsStr tp with _ | u <;> simp [prRule2b, htp]
        · have hrange : ¬ (1 ≤ m ∧ m ≤ (([] : List BranchRef).length : Int)) := by
            simp only [List.length_nil, Nat.cast_zero]
            omega
          have h2 : prRule2 [] ⟨RouteAction.ROUTE, some t, jsStr tp⟩ =
              ⟨RouteAction.BRANCH, none,
                if jsStr tp = none then some "New Topic" else jsStr tp⟩ := by
            simp only [prRule2, hpi, if_neg hrange]
          rw [h2]
          refine ⟨?_, rfl⟩
          rcases htp : jsStr tp with _ | u <;> simp [prRule2b, htp]
    have h3 : prRule3 cur (prRule2b (prRule2 [] ⟨RouteAction.ROUTE, jsStr tg, jsStr tp⟩)) =
        prRule2b (prRule2 [] ⟨RouteAction.ROUTE, jsStr tg, jsStr tp⟩) := by
      rw [h23.1]
      simp [prRule3]
    have hchain : parseResponse ⟨⟨RouteAction.ROUTE, tg, tp, rs, cf⟩, bc, fs⟩ cur [] =
        { action := RouteAction.BRANCH
          targetBranchId := (prRule2 [] ⟨RouteAction.ROUTE, jsStr tg, jsStr tp⟩).target
          newBranchTopic :=
            jsStr (if jsStr tp = none then some "New Topic" else jsStr tp)
          reason := jsStrOr rs "Unknown"
          confidence := jsNumOr cf (1 / 2)
          branchContext := some (jsStrOr bc "general conversation")
          facts := some (fs.getD []) } := by
      simp only [parseResponse, h1, h3, h23.1]
      rfl
    rw [hchain]
    exact ⟨rfl, hfb tp⟩

/-- C1 amended: for a first message (no current branch and no candidates) the
result always has action `BRANCH`; its topic is the classifier's suggestion
when present, and otherwise it is the 100-character content prefix when the
classifier's action was `STAY` but the fixed label `"New Topic"` when the
classifier's action was `BRANCH` or `ROUTE` (the response-validation fallback
fires before the first-message override). -/
theorem c1_first_message_branch_amended (content : String) (reply : LLMReply) :
    (classifyRoute Role.user content [] reply).classification.action =
        RouteAction.BRANCH ∧
    (∀ t, jsStr reply.wrapper.decision.newBranchTopic = some t →
      (classifyRoute Role.user content [] reply).classification.newBranchTopic =
        some t) ∧
    (jsStr reply.wrapper.decision.newBranchTopic = none →
      (classifyRoute Role.user content [] reply).classification.newBranchTopic =
        some (if reply.wrapper.decision.action = RouteAction.STAY
              then content.take 100 else "New Topic")) := by
  have hspec := parseResponse_nil_spec reply.wrapper none
  have hcls : classifyRoute Role.user content [] reply =
      (if h : reply.wrapper.decision.action = RouteAction.STAY then
        { classification :=
            { action := RouteAction.BRANCH
              targetBranchId := none
              newBranchTopic :=
                some (jsStrOr (parseResponse reply.wrapper none []).newBranchTopic
                  (content.take 100))
              reason := jsStrOr (some (parseResponse reply.wrapper none []).reason)
                "First message in conversation"
              confidence := (parseResponse reply.wrapper none []).confidence
              branchContext := none
              facts := none }
          tokenUsage := some reply.usage
          llmModel := some reply.model
          reasonCode := "first_message_forced_branch" }
      else
        { classification := parseResponse reply.wrapper none []
          tokenUsage := some reply.usage
          llmModel := some reply.model
          reasonCode :=
            "classified_" ++ actionName (parseResponse reply.wrapper none []).action }) := by
    by_cases ha : reply.wrapper.decision.action = RouteAction.STAY
    · have hover := (hspec.1 ha).1
      rw [dif_pos ha]
      simp [classifyRoute, hover]
    · have hkeep := (hspec.2 ha).1
      rw [dif_neg ha]
      simp [classifyRoute, hkeep]
  rw [hcls]
  by_cases ha : reply.wrapper.decision.action = RouteAction.STAY
  · rw [dif_pos ha]
    refine ⟨rfl, ?_, ?_⟩
    · intro t ht
      have htopic := (hspec.1 ha).2
      simp only [htopic, ht]
      simp [jsStrOr, jsStr_some_of_ne (jsStr_eq_some ht).2]
    · intro ht
      have htopic := (hspec.1 ha).2
      simp only [htopic, ht, if_pos ha]
      simp [jsStrOr, jsStr]
  · rw [dif_neg ha]
    refine ⟨(hspec.2 ha).1, ?_, ?_⟩
    · intro t ht
      have htopic := (hspec.2 ha).2
      simp only [htopic]
      simp [jsStrOr_some (x := reply.wrapper.decision.newBranchTopic) ht]
    · intro ht
      have htopic := (hspec.2 ha).2
      simp only [htopic, if_neg ha]
      simp [jsStrOr_none (x := reply.wrapper.decision.newBranchTopic) ht]

/-! Rule-level evaluation lemmas for `parseResponse` on general candidate
lists, used for the `ROUTE` index-resolution claims. -/

theorem prRule1_of_ne {st : PRState} (h : st.action ≠ RouteAction.BRANCH) :
    prRule1 st = st := by
  rcases st with ⟨a, tg, tp⟩
  simp only [prRule1]
  rw [if_neg]
  intro hc
  exact h hc.1

theorem prRule2_no_target (others : List BranchRef) (tp : Option String) :
    prRule2 others ⟨RouteAction.ROUTE, none, tp⟩ = ⟨RouteAction.ROUTE, none, tp⟩ :=
  rfl

theorem prRule2_nan {t : String} (others : List BranchRef) (tp : Option String)
    (hpi : jsParseInt t = none) :
    prRule2 others ⟨RouteAction.ROUTE, some t, tp⟩ =
      ⟨RouteAction.BRANCH, none, if tp = none then some "New Topic" else tp⟩ := by
  simp only [prRule2, hpi]

theorem prRule2_out_of_range {t : String} {n : Int} (others : List BranchRef)
    (tp : Option String) (hpi : jsParseInt t = some n)
    (h : ¬ (1 ≤ n ∧ n ≤ (others.length : Int))) :
    prRule2 others ⟨RouteAction.ROUTE, some t, tp⟩ =
      ⟨RouteAction.BRANCH, none, if tp = none then some "New Topic" else tp⟩ := by
  simp only [prRule2, hpi, if_neg h]

theorem prRule2_in_range {t : String} {n : Int} (others : List BranchRef)
    (tp : Option String) (hpi : jsParseInt t = some n)
    (h : 1 ≤ n ∧ n ≤ (others.length : Int)) :
    prRule2 others ⟨RouteAction.ROUTE, some t, tp⟩ =
      ⟨RouteAction.ROUTE, (others.get? (n - 1).toNat).map BranchRef.id, tp⟩ := by
  simp only [prRule2, hpi, if_pos h]

theorem prRule2b_of_ne {st : PRState} (h : st.action ≠ RouteAction.ROUTE) :
    prRule2b st = st := by
  rcases st with ⟨a, tg, tp⟩
  simp only [prRule2b]
  rw [if_neg]
  intro hc
  exact h hc.1

theorem prRule2b_of_truthy {st : PRState} (h : jsStr st.target ≠ none) :
    prRule2b st = st := by
  rcases st with ⟨a, tg, tp⟩
  simp only [prRule2b]
  rw [if_neg]
  intro hc
  exact h hc.2

theorem prRule3_of_ne {cur : Option String} {st : PRState}
    (h : st.action ≠ RouteAction.ROUTE) : prRule3 cur st = st := by
  rcases st with ⟨a, tg, tp⟩
  simp only [prRule3]
  rw [if_neg]
  intro hc
  exact h hc.1

theorem prRule3_of_ne_target {cur : Option String} {st : PRState}
    (h : st.target ≠ cur) : prRule3 cur st = st := by
  rcases st with ⟨a, tg, tp⟩
  simp only [prRule3]
  rw [if_neg]
  intro hc
  exact h hc.2

theorem prRule3_not_fire {cur : Option String} {st : PRState}
    (h : ¬ (st.action = RouteAction.ROUTE ∧ st.target = cur)) :
    prRule3 cur st = st := by
  rcases st with ⟨a, tg, tp⟩
  simp only [prRule3]
  rw [if_neg h]

theorem prRule3_self {cur : Option String} {st : PRState}
    (ha : st.action = RouteAction.ROUTE) (ht : st.target = cur) :
    prRule3 cur st = { st with action := RouteAction.STAY, target := none } := by
  rcases st with ⟨a, tg, tp⟩
  simp only [prRule3]
  rw [if_pos ⟨ha, ht⟩]

/-- C2: for a `ROUTE` decision parsed against an other-branch candidate list
(nonempty ids, none of them the current branch): a target that is a numeral
between 1 and the candidate count resolves to the id of the candidate at that
1-based position; a missing, non-numeric, or out-of-range target falls back
to `BRANCH` with no target and, when no topic was supplied, the fallback
topic label. -/
theorem c2_route_index_resolution (w : LLMWrapper) (cur : Option String)
    (others : List BranchRef)
    (hact : w.decision.action = RouteAction.ROUTE)
    (hids : ∀ b ∈ others, b.id ≠ "" ∧ some b.id ≠ cur) :
    (∀ t n, jsStr w.decision.targetBranchId = some t → jsParseInt t = some n →
      1 ≤ n → n ≤ (others.length : Int) →
      ∃ b, others.get? (n - 1).toNat = some b ∧
        (parseResponse w cur others).action = RouteAction.ROUTE ∧
        (parseResponse w cur others).targetBranchId = some b.id) ∧
    ((∀ t n, jsStr w.decision.targetBranchId = some t → jsParseInt t = some n →
        ¬ (1 ≤ n ∧ n ≤ (others.length : Int))) →
      (parseResponse w cur others).action = RouteAction.BRANCH ∧
      (parseResponse w cur others).targetBranchId = none ∧
      (jsStr w.decision.newBranchTopic = none →
        (parseResponse w cur others).newBranchTopic = some "New Topic")) := by
  rcases w with ⟨⟨a, tg, tp, rs, cf⟩, bc, fs⟩
  simp only at hact
  subst hact
  have h1 : prRule1 ⟨RouteAction.ROUTE, jsStr tg, jsStr tp⟩ =
      ⟨RouteAction.ROUTE, jsStr tg, jsStr tp⟩ :=
    prRule1_of_ne (by intro hc; cases hc)
  constructor
  · intro t n ht hpi hn1 hn2
    have hidx : (n - 1).toNat < others.length := by omega
    obtain ⟨b, hb⟩ : ∃ b, others.get? (n - 1).toNat = some b :=
      ⟨others.get ⟨(n - 1).toNat, hidx⟩, List.get?_eq_get hidx⟩
    refine ⟨b, hb, ?_⟩
    have hbmem : b ∈ others := List.get?_mem hb
    have h2 : prRule2 others ⟨RouteAction.ROUTE, jsStr tg, jsStr tp⟩ =
        ⟨RouteAction.ROUTE, some b.id, jsStr tp⟩ := by
      rw [ht, prRule2_in_range others (jsStr tp) hpi ⟨hn1, hn2⟩, hb]
      rfl
    have h2b : prRule2b (⟨RouteAction.ROUTE, some b.id, jsStr tp⟩ : PRState) =
        ⟨RouteAction.ROUTE, some b.id, jsStr tp⟩ :=
      prRule2b_of_truthy (by
        simp only [jsStr_some_of_ne (hids b hbmem).1]
        exact Option.some_ne_none _)
    have h3 : prRule3 cur (⟨RouteAction.ROUTE, some b.id, jsStr tp⟩ : PRState) =
        ⟨RouteAction.ROUTE, some b.id, jsStr tp⟩ :=
      prRule3_of_ne_target (hids b hbmem).2
    simp only [parseResponse, h1, h2, h2b, h3]
    exact ⟨by trivial, by trivial⟩
  · intro hinvalid
    have hfall : prRule2b (prRule2 others ⟨RouteAction.ROUTE, jsStr tg, jsStr tp⟩) =
        ⟨RouteAction.BRANCH, none, if jsStr tp = none then some "New Topic" else jsStr tp⟩ ∨
        (jsStr tg = none ∧
          prRule2b (prRule2 others ⟨RouteAction.ROUTE, jsStr tg, jsStr tp⟩) =
            ⟨RouteAction.BRANCH, none,
              if jsStr tp = none then some "New Topic" else jsStr tp⟩) := by
      rcases htg : jsStr tg with _ | t
      · right
        refine ⟨rfl, ?_⟩
        rw [prRule2_no_target others (jsStr tp)]
        simp [prRule2b, jsStr]
      · left
        rcases hpi : jsParseInt t with _ | m
        · rw [prRule2_nan others (jsStr tp) hpi]
          exact prRule2b_of_ne (by intro hc; cases hc)
        · rw [prRule2_out_of_range others (jsStr tp) hpi (hinvalid t m htg hpi)]
          exact prRule2b_of_ne (by intro hc; cases hc)
    have hres : prRule2b (prRule2 others ⟨RouteAction.ROUTE, jsStr tg, jsStr tp⟩) =
        ⟨RouteAction.BRANCH, none,
          if jsStr tp = none then some "New Topic" else jsStr tp⟩ := by
      rcases hfall with h | ⟨_, h⟩ <;> exact h
    have h3 : prRule3 cur (⟨RouteAction.BRANCH, none,
        if jsStr tp = none then some "New Topic" else jsStr tp⟩ : PRState) =
        ⟨RouteAction.BRANCH, none,
          if jsStr tp = none then some "New Topic" else jsStr tp⟩ :=
      prRule3_of_ne (by intro hc; cases hc)
    simp only [parseResponse, h1, hres, h3]
    refine ⟨by trivial, by trivial, ?_⟩
    intro htp
    simp only [htp]
    rfl

/-- C2 witness: decision `ROUTE` with target `"2"` against two candidates
resolves to the second candidate's id. -/
theorem c2_route_index_witness :
    ∃ b, ([⟨"A", "sa"⟩, ⟨"B", "sb"⟩] : List BranchRef).get? 1 = some b ∧
      (parseResponse ⟨⟨RouteAction.ROUTE, some "2", none, some "r", some 1⟩, none, none⟩
        (some "C") [⟨"A", "sa"⟩, ⟨"B", "sb"⟩]).action = RouteAction.ROUTE ∧
      (parseResponse ⟨⟨RouteAction.ROUTE, some "2", none, some "r", some 1⟩, none, none⟩
        (some "C") [⟨"A", "sa"⟩, ⟨"B", "sb"⟩]).targetBranchId = some b.id := by
  have h := (c2_route_index_resolution
    ⟨⟨RouteAction.ROUTE, some "2", none, some "r", some 1⟩, none, none⟩
    (some "C") [⟨"A", "sa"⟩, ⟨"B", "sb"⟩] rfl (by decide)).1 "2" 2 rfl (by decide)
    (by decide) (by decide)
  simpa using h

/-- C3: every classification returned by `parseResponse` with action `ROUTE`
carries a target branch id that is set and differs from the current branch
id; and a `ROUTE` decision whose valid numeric index resolves to the current
branch id is normalized to `STAY` with no target. -/
theorem c3_self_route_normalized (w : LLMWrapper) (cur : Option String)
    (others : List BranchRef) :
    ((parseResponse w cur others).action = RouteAction.ROUTE →
      (parseResponse w cur others).targetBranchId ≠ cur ∧
      (parseResponse w cur others).targetBranchId ≠ none) ∧
    (∀ t n b, w.decision.action = RouteAction.ROUTE →
      jsStr w.decision.targetBranchId = some t → jsParseInt t = some n →
      1 ≤ n → n ≤ (others.length : Int) →
      others.get? (n - 1).toNat = some b → b.id ≠ "" → some b.id = cur →
      (parseResponse w cur others).action = RouteAction.STAY ∧
      (parseResponse w cur others).targetBranchId = none) := by
  constructor
  · intro hroute
    rcases w with ⟨⟨a, tg, tp, rs, cf⟩, bc, fs⟩
    set st2 := prRule2 others (prRule1 ⟨a, jsStr tg, jsStr tp⟩) with hst2
    by_cases h2b : st2.action = RouteAction.ROUTE ∧ jsStr st2.target = none
    · exfalso
      have hu : (prRule2b st2).action = RouteAction.BRANCH := by
        rcases st2 with ⟨sa, stg, stp⟩
        simp only [prRule2b, if_pos h2b]
      by_cases h3 : (prRule2b st2).action = RouteAction.ROUTE ∧
          (prRule2b st2).target = cur
      · exact absurd h3.1 (by rw [hu]; intro hc; cases hc)
      · have := @prRule3_of_ne cur (prRule2b st2)
          (by rw [hu]; intro hc; cases hc)
        have hact : (parseResponse ⟨⟨a, tg, tp, rs, cf⟩, bc, fs⟩ cur others).action =
            (prRule2b st2).action := by
          simp only [parseResponse, ← hst2, this]
        rw [hact, hu] at hroute
        cases hroute
    · by_cases h3 : (prRule2b st2).action = RouteAction.ROUTE ∧
          (prRule2b st2).target = cur
      · exfalso
        have := prRule3_self h3.1 h3.2
        have hact : (parseResponse ⟨⟨a, tg, tp, rs, cf⟩, bc, fs⟩ cur others).action =
            RouteAction.STAY := by
          simp only [parseResponse, ← hst2, this]
        rw [hact] at hroute
        cases hroute
      · have hu : prRule2b st2 = st2 := by
          by_cases hroute2 : st2.action = RouteAction.ROUTE
          · exact prRule2b_of_truthy (fun hc => h2b ⟨hroute2, hc⟩)
          · exact prRule2b_of_ne hroute2
        have hfin : prRule3 cur (prRule2b st2) = st2 :=
          (@prRule3_not_fire cur (prRule2b st2) h3).trans hu
        have hact2 : (parseResponse ⟨⟨a, tg, tp, rs, cf⟩, bc, fs⟩ cur others).action =
            st2.action := by
          simp only [parseResponse, ← hst2, hfin]
        have htgt2 : (parseResponse ⟨⟨a, tg, tp, rs, cf⟩, bc, fs⟩ cur others).targetBranchId =
            st2.target := by
          simp only [parseResponse, ← hst2, hfin]
        have hroute2 : st2.action = RouteAction.ROUTE := by
          rw [← hact2]
          exact hroute
        rw [hu] at h3
        constructor
        · rw [htgt2]
          intro hc
          exact h3 ⟨hroute2, hc⟩
        · rw [htgt2]
          intro hc
          refine h2b ⟨hroute2, ?_⟩
          rw [hc]
          rfl
  · intro t n b hact ht hpi hn1 hn2 hb hbne hbcur
    rcases w with ⟨⟨a, tg, tp, rs, cf⟩, bc, fs⟩
    simp only at hact ht
    subst hact
    have h1 : prRule1 ⟨RouteAction.ROUTE, jsStr tg, jsStr tp⟩ =
        ⟨RouteAction.ROUTE, jsStr tg, jsStr tp⟩ :=
      prRule1_of_ne (by intro hc; cases hc)
    have h2 : prRule2 others ⟨RouteAction.ROUTE, jsStr tg, jsStr tp⟩ =
        ⟨RouteAction.ROUTE, some b.id, jsStr tp⟩ := by
      rw [ht, prRule2_in_range others (jsStr tp) hpi ⟨hn1, hn2⟩, hb]
      rfl
    have h2b : prRule2b (⟨RouteAction.ROUTE, some b.id, jsStr tp⟩ : PRState) =
        ⟨RouteAction.ROUTE, some b.id, jsStr tp⟩ :=
      prRule2b_of_truthy (by
        simp only [jsStr_some_of_ne hbne]
        exact Option.some_ne_none _)
    have h3 : prRule3 cur (⟨RouteAction.ROUTE, some b.id, jsStr tp⟩ : PRState) =
        ⟨RouteAction.STAY, none, jsStr tp⟩ := by
      rw [prRule3_self rfl hbcur]
    simp only [parseResponse, h1, h2, h2b, h3]
    exact ⟨by trivial, by trivial⟩

/-- C3 witness: a valid `ROUTE` index resolving to the current branch id is
downgraded to `STAY` with no target. -/
theorem c3_self_route_witness :
    (parseResponse ⟨⟨RouteAction.ROUTE, some "1", none, some "r", some 1⟩, none, none⟩
      (some "A") [⟨"A", "sa"⟩]).action = RouteAction.STAY ∧
    (parseResponse ⟨⟨RouteAction.ROUTE, some "1", none, some "r", some 1⟩, none, none⟩
      (some "A") [⟨"A", "sa"⟩]).targetBranchId = none :=
  (c3_self_route_normalized
    ⟨⟨RouteAction.ROUTE, some "1", none, some "r", some 1⟩, none, none⟩
    (some "A") [⟨"A", "sa"⟩]).2 "1" 1 ⟨"A", "sa"⟩ rfl rfl (by decide) (by decide)
    (by decide) (by decide) (by decide) (by decide)

/-! Structural lemmas about the supersession step. -/

theorem applySupersede_no_match {l : List FactValue} {target : String}
    (mid : String) (h : ∀ e ∈ l, isActiveMatch target e = false) :
    applySupersede mid target l = l := by
  induction l with
  | nil => rfl
  | cons e rest ih =>
    have he := h e (List.mem_cons_self e rest)
    simp only [applySupersede, he]
    simp only [Bool.false_eq_true, if_false]
    rw [ih (fun e' he' => h e' (List.mem_cons_of_mem _ he'))]

/-- C5: a single supersedes request changes at most one entry — the first
one that is still active and matches the named value text exactly, which is
marked superseded and stamped with the originating message id; when no
active exact match exists the list is left unchanged (and no error is
raised: `applySupersede` is total). -/
theorem c5_supersede_touches_one (l : List FactValue) (target mid : String) :
    ((∀ e ∈ l, isActiveMatch target e = false) →
      applySupersede mid target l = l) ∧
    (∀ i (hi : i < l.length), isActiveMatch target (l.get ⟨i, hi⟩) = true →
      (∀ j (hj : j < i), isActiveMatch target (l.get ⟨j, hj.trans hi⟩) = false) →
      applySupersede mid target l =
        l.set i (markSuperseded mid (l.get ⟨i, hi⟩))) := by
  constructor
  · exact applySupersede_no_match mid
  · induction l with
    | nil =>
      intro i hi
      exact absurd hi (by simp)
    | cons e rest ih =>
      intro i hi hmatch hbefore
      cases i with
      | zero =>
        have he : isActiveMatch target e = true := hmatch
        simp only [applySupersede, he, if_true]
        rfl
      | succ i' =>
        have he : isActiveMatch target e = false :=
          hbefore 0 (Nat.succ_pos i')
        simp only [applySupersede, he, Bool.false_eq_true, if_false]
        have hi' : i' < rest.length := Nat.lt_of_succ_lt_succ hi
        rw [ih i' hi' hmatch
          (fun j hj => hbefore (j + 1) (Nat.succ_lt_succ hj))]
        rfl

/-- C5 witness: superseding `"x"` in a list whose first `"x"` entry is
already superseded touches exactly the second (first active) entry. -/
theorem c5_supersede_witness :
    applySupersede "mm" "x"
        [⟨"x", "m0", 1, FactStatus.superseded, none⟩,
         ⟨"x", "m1", 1, FactStatus.active, none⟩,
         ⟨"x", "m2", 1, FactStatus.active, none⟩] =
      [⟨"x", "m0", 1, FactStatus.superseded, none⟩,
       ⟨"x", "m1", 1, FactStatus.superseded, some "mm"⟩,
       ⟨"x", "m2", 1, FactStatus.active, none⟩] ∧
    applySupersede "mm" "y"
        [⟨"x", "m0", 1, FactStatus.superseded, none⟩,
         ⟨"x", "m1", 1, FactStatus.active, none⟩] =
      [⟨"x", "m0", 1, FactStatus.superseded, none⟩,
       ⟨"x", "m1", 1, FactStatus.active, none⟩] := by
  constructor
  · have h := (c5_supersede_touches_one
      [⟨"x", "m0", 1, FactStatus.superseded, none⟩,
       ⟨"x", "m1", 1, FactStatus.active, none⟩,
       ⟨"x", "m2", 1, FactStatus.active, none⟩] "x" "mm").2 1 (by decide)
      (by decide) (by decide)
    simpa using h
  · exact (c5_supersede_touches_one
      [⟨"x", "m0", 1, FactStatus.superseded, none⟩,
       ⟨"x", "m1", 1, FactStatus.active, none⟩] "y" "mm").1 (by decide)

/-! How entries evolve during a merge: the `Evolves` relation and its
interaction with the supersession and append steps. -/

theorem isActiveMatch_iff {t : String} {e : FactValue} :
    isActiveMatch t e = true ↔ e.value = t ∧ e.status = FactStatus.active := by
  simp [isActiveMatch, Bool.and_eq_true, beq_iff_eq]

theorem evolves_refl (mid : String) (e : FactValue) : Evolves mid e e :=
  Or.inl rfl

theorem evolves_value {mid : String} {e e' : FactValue} (h : Evolves mid e e') :
    e'.value = e.value := by
  rcases h with rfl | ⟨_, rfl⟩ <;> rfl

theorem evolves_trans {mid : String} {a b c : FactValue}
    (h1 : Evolves mid a b) (h2 : Evolves mid b c) : Evolves mid a c := by
  rcases h1 with rfl | ⟨ha, rfl⟩
  · exact h2
  · rcases h2 with rfl | ⟨hb, rfl⟩
    · exact Or.inr ⟨ha, rfl⟩
    · exact absurd hb (by simp [markSuperseded])

theorem forall2_evolves_refl (mid : String) (l : List FactValue) :
    List.Forall₂ (Evolves mid) l l :=
  List.forall₂_same.mpr (fun e _ => evolves_refl mid e)

theorem forall2_evolves_trans {mid : String} {l m n : List FactValue}
    (h1 : List.Forall₂ (Evolves mid) l m) (h2 : List.Forall₂ (Evolves mid) m n) :
    List.Forall₂ (Evolves mid) l n := by
  induction h1 generalizing n with
  | nil =>
    cases h2
    exact List.Forall₂.nil
  | cons hab htail ih =>
    cases h2 with
    | cons hbc htail2 =>
      exact List.Forall₂.cons (evolves_trans hab hbc) (ih htail2)

theorem forall2_append_split {R : FactValue → FactValue → Prop}
    {xs ys zs : List FactValue} (h : List.Forall₂ R (xs ++ ys) zs) :
    ∃ z1 z2, zs = z1 ++ z2 ∧ List.Forall₂ R xs z1 ∧ List.Forall₂ R ys z2 := by
  induction xs generalizing zs with
  | nil => exact ⟨[], zs, rfl, List.Forall₂.nil, h⟩
  | cons x xs ih =>
    cases h with
    | cons hxz htail =>
      obtain ⟨z1, z2, rfl, h1, h2⟩ := ih htail
      exact ⟨_ :: z1, z2, rfl, List.Forall₂.cons hxz h1, h2⟩

theorem forall2_mem_right {R : FactValue → FactValue → Prop}
    {l l' : List FactValue} (h : List.Forall₂ R l l') {e' : FactValue}
    (he : e' ∈ l') : ∃ e ∈ l, R e e' := by
  induction h with
  | nil => cases he
  | cons hab htail ih =>
    rcases List.mem_cons.mp he with rfl | hmem
    · exact ⟨_, List.mem_cons_self _ _, hab⟩
    · obtain ⟨e, hel, hR⟩ := ih hmem
      exact ⟨e, List.mem_cons_of_mem _ hel, hR⟩

theorem forall2_value_map {mid : String} {l l' : List FactValue}
    (h : List.Forall₂ (Evolves mid) l l') :
    l'.map FactValue.value = l.map FactValue.value := by
  induction h with
  | nil => rfl
  | cons hab htail ih =>
    simp only [List.map_cons, ih, evolves_value hab]

theorem forall2_countP_val {mid t : String} {l l' : List FactValue}
    (h : List.Forall₂ (Evolves mid) l l') :
    l'.countP (fun e => e.value == t) = l.countP (fun e => e.value == t) := by
  induction h with
  | nil => rfl
  | cons hab htail ih =>
    simp only [List.countP_cons, ih, evolves_value hab]

theorem applySupersede_forall2 (mid t : String) (l : List FactValue) :
    List.Forall₂ (Evolves mid) l (applySupersede mid t l) := by
  induction l with
  | nil => exact List.Forall₂.nil
  | cons e rest ih =>
    by_cases h : isActiveMatch t e = true
    · simp only [applySupersede, h, if_true]
      exact List.Forall₂.cons (Or.inr ⟨(isActiveMatch_iff.mp h).2, rfl⟩)
        (forall2_evolves_refl mid rest)
    · simp only [applySupersede, h, Bool.false_eq_true, if_false]
      exact List.Forall₂.cons (evolves_refl mid e) ih

theorem foldSupersede_forall2 (mid : String) (ts : List String) :
    ∀ l : List FactValue,
      List.Forall₂ (Evolves mid) l
        (ts.foldl (fun acc t => applySupersede mid t acc) l) := by
  induction ts with
  | nil =>
    intro l
    exact forall2_evolves_refl mid l
  | cons t ts ih =>
    intro l
    simp only [List.foldl_cons]
    exact forall2_evolves_trans (applySupersede_forall2 mid t l)
      (ih (applySupersede mid t l))

/-- Structure of one update step: the existing entries evolve in place and at
most one fresh entry (for a value text not previously present) is appended. -/
theorem mergeNewValue_spec (mid : String) (l : List FactValue)
    (nv : FactValueInput) :
    ∃ l1 ext, mergeNewValue mid l nv = l1 ++ ext ∧
      List.Forall₂ (Evolves mid) l l1 ∧
      (ext = [] ∨
        (ext = [⟨nv.value, mid, nv.confidence, FactStatus.active, none⟩] ∧
          ∀ e ∈ l, e.value ≠ nv.value)) := by
  by_cases h : (nv.supersedes.foldl (fun acc t => applySupersede mid t acc) l).any
      (fun ev => ev.value == nv.value) = true
  · refine ⟨nv.supersedes.foldl (fun acc t => applySupersede mid t acc) l, [], ?_,
      foldSupersede_forall2 mid nv.supersedes l, Or.inl rfl⟩
    simp only [mergeNewValue, h, if_true, List.append_nil]
  · refine ⟨_, [⟨nv.value, mid, nv.confidence, FactStatus.active, none⟩], ?_,
      foldSupersede_forall2 mid nv.supersedes l, Or.inr ⟨rfl, ?_⟩⟩
    · simp only [mergeNewValue, h, Bool.false_eq_true, if_false]
    · intro e hel hev
      apply h
      rw [List.any_eq_true]
      have hmap := forall2_value_map (foldSupersede_forall2 mid nv.supersedes l)
      have : e.value ∈ (nv.supersedes.foldl
          (fun acc t => applySupersede mid t acc) l).map FactValue.value := by
        rw [hmap]
        exact List.mem_map_of_mem FactValue.value hel
      obtain ⟨e1, he1, hv1⟩ := List.mem_map.mp this
      exact ⟨e1, he1, by rw [beq_iff_eq, hv1, hev]⟩

/-- Structure of the whole update path: existing entries evolve in place
(never deleted, never reordered); appended entries carry value texts that
were not present before the merge. -/
theorem mergeValsUpdate_spec (mid : String) (vals : List FactValueInput) :
    ∀ l : List FactValue, ∃ l' ext,
      mergeValsUpdate mid l vals = l' ++ ext ∧
      List.Forall₂ (Evolves mid) l l' ∧
      ∀ e ∈ ext, e.value ∉ l.map FactValue.value := by
  induction vals with
  | nil =>
    intro l
    exact ⟨l, [], (List.append_nil l).symm, forall2_evolves_refl mid l, by simp⟩
  | cons v vs ih =>
    intro l
    have hstep : mergeValsUpdate mid l (v :: vs) =
        mergeValsUpdate mid (mergeNewValue mid l v) vs := by
      simp [mergeValsUpdate, List.foldl_cons]
    obtain ⟨l1, ext0, he0, hf0, hp0⟩ := mergeNewValue_spec mid l v
    obtain ⟨L2, ext1, he1, hf1, hp1⟩ := ih (mergeNewValue mid l v)
    rw [he0] at hf1
    obtain ⟨z1, z2, rfl, hz1, hz2⟩ := forall2_append_split hf1
    refine ⟨z1, z2 ++ ext1, ?_, forall2_evolves_trans hf0 hz1, ?_⟩
    · rw [hstep, he1, List.append_assoc]
    · intro e he
      rcases List.mem_append.mp he with h | h
      · rcases hp0 with rfl | ⟨rfl, hvals⟩
        · cases hz2
          cases h
        · cases hz2 with
          | cons hev htail =>
            cases htail
            rcases List.mem_singleton.mp h with rfl
            rw [evolves_value hev]
            intro hmem
            obtain ⟨a, ha, hav⟩ := List.mem_map.mp hmem
            exact hvals a ha hav
      · have hnot := hp1 e h
        rw [he0] at hnot
        intro hmem
        apply hnot
        have hmapeq := forall2_value_map hf0
        have hmem1 : e.value ∈ List.map FactValue.value l1 := by
          rw [hmapeq]
          exact hmem
        rw [List.map_append]
        exact List.mem_append.mpr (Or.inl hmem1)

/-- C10: in the update path, a candidate value whose text equals any existing
entry for that key — whatever that entry's status — is never appended (the
total number of entries with that text is unchanged), and once every entry
with that text is inactive, re-asserting the same text never yields an
active entry with it again. -/
theorem c10_superseded_value_stays_inactive (mid : String) (l : List FactValue)
    (vals : List FactValueInput) (t : String)
    (hex : ∃ e ∈ l, e.value = t) :
    (mergeValsUpdate mid l vals).countP (fun e => e.value == t) =
      l.countP (fun e => e.value == t) ∧
    ((∀ e ∈ l, e.value = t → e.status ≠ FactStatus.active) →
      ∀ e ∈ mergeValsUpdate mid l vals, e.value = t →
        e.status ≠ FactStatus.active) := by
  obtain ⟨l', ext, heq, hf2, hext⟩ := mergeValsUpdate_spec mid vals l
  have htmem : t ∈ l.map FactValue.value := by
    obtain ⟨e, hel, hev⟩ := hex
    exact hev ▸ List.mem_map_of_mem FactValue.value hel
  constructor
  · rw [heq, List.countP_append]
    have h1 : l'.countP (fun e => e.value == t) =
        l.countP (fun e => e.value == t) := forall2_countP_val hf2
    have h2 : ext.countP (fun e => e.value == t) = 0 := by
      rw [List.countP_eq_zero]
      intro e he
      have hne : e.value ≠ t := fun hv => (hext e he) (hv ▸ htmem)
      simp [hne]
    rw [h1, h2]
    omega
  · intro hinact e he hv
    rw [heq] at he
    rcases List.mem_append.mp he with h | h
    · obtain ⟨a, ha, hE⟩ := forall2_mem_right hf2 h
      have hav : a.value = t := by rw [← evolves_value hE, hv]
      have hna := hinact a ha hav
      rcases hE with rfl | ⟨hact, rfl⟩
      · exact hna
      · exact absurd hact hna
    · exact absurd (hv ▸ htmem) (hext e h)

/-- C10 witness: with `"a"` superseded for a key, re-asserting `"a"` in an
update-merge appends nothing and leaves every `"a"` entry inactive. -/
theorem c10_superseded_witness :
    (∃ e ∈ [⟨"a", "m0", 1, FactStatus.superseded, some "m1"⟩,
            ⟨"b", "m1", 1, FactStatus.active, none⟩], FactValue.value e = "a") ∧
    (mergeValsUpdate "m2"
        [⟨"a", "m0", 1, FactStatus.superseded, some "m1"⟩,
         ⟨"b", "m1", 1, FactStatus.active, none⟩]
        [⟨"a", 1, []⟩]).countP (fun e => e.value == "a") =
      ([⟨"a", "m0", (1 : ℚ), FactStatus.superseded, some "m1"⟩,
        ⟨"b", "m1", 1, FactStatus.active, none⟩] :
        List FactValue).countP (fun e => e.value == "a") ∧
    ∀ e ∈ mergeValsUpdate "m2"
        [⟨"a", "m0", 1, FactStatus.superseded, some "m1"⟩,
         ⟨"b", "m1", 1, FactStatus.active, none⟩]
        [⟨"a", 1, []⟩], e.value = "a" → e.status ≠ FactStatus.active := by
  refine ⟨⟨_, List.mem_cons_self _ _, rfl⟩, ?_, ?_⟩
  · exact (c10_superseded_value_stays_inactive "m2"
      [⟨"a", "m0", 1, FactStatus.superseded, some "m1"⟩,
       ⟨"b", "m1", 1, FactStatus.active, none⟩] [⟨"a", 1, []⟩] "a"
      ⟨_, List.mem_cons_self _ _, rfl⟩).1
  · exact (c10_superseded_value_stays_inactive "m2"
      [⟨"a", "m0", 1, FactStatus.superseded, some "m1"⟩,
       ⟨"b", "m1", 1, FactStatus.active, none⟩] [⟨"a", 1, []⟩] "a"
      ⟨_, List.mem_cons_self _ _, rfl⟩).2 (by decide)

/-! JavaScript object semantics of the fact map. -/

theorem lookup_setFacts_self : ∀ (m : FactMap) (k : String) (l : List FactValue),
    lookupFacts (setFacts m k l) k = some l
  | [], k, l => by simp [setFacts, lookupFacts]
  | p :: rest, k, l => by
    by_cases h : p.1 = k
    · simp [setFacts, h, lookupFacts]
    · have ih := lookup_setFacts_self rest k l
      simp only [setFacts, if_neg h, lookupFacts] at ih ⊢
      rw [List.find?_cons_of_neg]
      · exact ih
      · simp [h]

theorem lookup_setFacts_other : ∀ (m : FactMap) {k k' : String}, k' ≠ k →
    ∀ (l : List FactValue), lookupFacts (setFacts m k l) k' = lookupFacts m k'
  | [], k, k', h, l => by
    simp only [setFacts, lookupFacts, List.find?]
    have hkk : (k == k') = false := by
      rw [beq_eq_false_iff_ne]
      exact fun hc => h hc.symm
    simp [hkk]
  | p :: rest, k, k', h, l => by
    by_cases hp : p.1 = k
    · simp only [setFacts, if_pos hp, lookupFacts, List.find?]
      have h1 : (k == k') = false := by
        rw [beq_eq_false_iff_ne]
        exact fun hc => h hc.symm
      have h2 : (p.1 == k') = false := by
        rw [beq_eq_false_iff_ne, hp]
        exact fun hc => h hc.symm
      simp [h1, h2]
    · simp only [setFacts, if_neg hp, lookupFacts, List.find?]
      by_cases hpk : (p.1 == k') = true
      · simp [hpk]
      · have ih := lookup_setFacts_other rest h l
        simp only [lookupFacts] at ih
        simp only [Bool.not_eq_true] at hpk
        simp [hpk, ih]

theorem mergeFact_lookup_other {f : ExtractedFact} {k : String} (h : f.key ≠ k)
    (mid : String) (m : FactMap) :
    lookupFacts (mergeFact mid m f) k = lookupFacts m k := by
  rcases hl : lookupFacts m f.key with _ | l
  · simp only [mergeFact, hl]
    exact lookup_setFacts_other m (Ne.symm h) _
  · simp only [mergeFact, hl]
    by_cases hu : f.isUpdate = true
    · simp only [hu, if_true]
      exact lookup_setFacts_other m (Ne.symm h) _
    · simp only [hu, Bool.false_eq_true, if_false]
      exact lookup_setFacts_other m (Ne.symm h) _

theorem foldMergeFact_lookup_notin {k : String} (mid : String) :
    ∀ (fs : List ExtractedFact), k ∉ fs.map ExtractedFact.key →
    ∀ (m : FactMap),
      lookupFacts (fs.foldl (mergeFact mid) m) k = lookupFacts m k
  | [], _, m => rfl
  | f :: fs, h, m => by
    have hk : f.key ≠ k := by
      intro hc
      exact h (by simp [← hc])
    have hrest : k ∉ fs.map ExtractedFact.key := by
      intro hc
      exact h (by simp [hc])
    simp only [List.foldl_cons]
    rw [foldMergeFact_lookup_notin mid fs hrest (mergeFact mid m f)]
    exact mergeFact_lookup_other hk mid m


theorem preserves_refl (mid : String) (l : List FactValue) : Preserves mid l l :=
  ⟨l, [], (List.append_nil l).symm, forall2_evolves_refl mid l⟩

theorem preserves_trans {mid : String} {a b c : List FactValue}
    (h1 : Preserves mid a b) (h2 : Preserves mid b c) : Preserves mid a c := by
  obtain ⟨l1, e1, rfl, f1⟩ := h1
  obtain ⟨l2, e2, rfl, f2⟩ := h2
  obtain ⟨z1, z2, rfl, hz1, _⟩ := forall2_append_split f2
  exact ⟨z1, z2 ++ e2, by rw [List.append_assoc], forall2_evolves_trans f1 hz1⟩

theorem mergeValsUpdate_preserves (mid : String) (l : List FactValue)
    (vals : List FactValueInput) :
    Preserves mid l (mergeValsUpdate mid l vals) := by
  obtain ⟨l', ext, heq, hf2, _⟩ := mergeValsUpdate_spec mid vals l
  exact ⟨l', ext, heq, hf2⟩

theorem foldMerge_preserves (mid : String) :
    ∀ (fs : List ExtractedFact) (m0 m : FactMap),
      (∀ f ∈ fs, (lookupFacts m0 f.key).isSome → f.isUpdate = true) →
      (∀ k l, lookupFacts m0 k = some l →
        ∃ cur, lookupFacts m k = some cur ∧ Preserves mid l cur) →
      ∀ k l, lookupFacts m0 k = some l →
        ∃ cur, lookupFacts (fs.foldl (mergeFact mid) m) k = some cur ∧
          Preserves mid l cur
  | [], m0, m, _, hinv, k, l, hl => hinv k l hl
  | f :: fs, m0, m, hupd, hinv, k, l, hl => by
    simp only [List.foldl_cons]
    refine foldMerge_preserves mid fs m0 (mergeFact mid m f)
      (fun g hg => hupd g (List.mem_cons_of_mem f hg)) ?_ k l hl
    intro k' l' hl'
    by_cases hk : f.key = k'
    · have hu : f.isUpdate = true := by
        apply hupd f (List.mem_cons_self f fs)
        rw [hk, hl']
        rfl
      obtain ⟨cur, hcur, hpres⟩ := hinv k' l' hl'
      refine ⟨mergeValsUpdate mid cur f.values, ?_,
        preserves_trans hpres (mergeValsUpdate_preserves mid cur f.values)⟩
      have hlk : lookupFacts m f.key = some cur := by rw [hk, hcur]
      simp only [mergeFact, hlk, hu, if_true]
      rw [← hk] at hcur ⊢
      exact lookup_setFacts_self m f.key _
    · obtain ⟨cur, hcur, hpres⟩ := hinv k' l' hl'
      exact ⟨cur, by rw [mergeFact_lookup_other hk mid m]; exact hcur, hpres⟩


/-- C6 counterexample: a payload whose fact for an existing key has
`isUpdate` false replaces the key's whole entry list, deleting the
pre-existing entry `"a"` — so entries can be deleted by the merge. -/
theorem c6_deletion_counterexample :
    lookupFacts c6PriorMap "k" =
      some [⟨"a", "m0", 1, FactStatus.active, none⟩] ∧
    lookupFacts (mergeFacts c6PriorMap (some c6FreshPayload) "m1") "k" =
      some [⟨"b", "m1", 1, FactStatus.active, none⟩] ∧
    ∀ e ∈ (lookupFacts (mergeFacts c6PriorMap (some c6FreshPayload) "m1") "k").getD [],
      e.value ≠ "a" := by
  refine ⟨rfl, rfl, ?_⟩
  decide

/-- C6 amended: provided every payload fact whose key already exists in the
map is flagged `isUpdate` (the documented meaning of the flag), no value
entry is ever deleted: each pre-existing entry is still present at its
position, with its value, message id and confidence unchanged and its status
either unchanged or transitioned active→superseded; superseded entries are
retained. -/
theorem c6_entries_never_deleted_amended (m : FactMap) (fs : List ExtractedFact)
    (mid : String)
    (hupd : ∀ f ∈ fs, (lookupFacts m f.key).isSome → f.isUpdate = true) :
    ∀ k l, lookupFacts m k = some l →
      ∃ cur, lookupFacts (mergeFacts m (some fs) mid) k = some cur ∧
        Preserves mid l cur := by
  intro k l hl
  by_cases hfs : fs = []
  · subst hfs
    exact ⟨l, by simpa [mergeFacts] using hl, preserves_refl mid l⟩
  · have : mergeFacts m (some fs) mid = fs.foldl (mergeFact mid) m := by
      simp [mergeFacts, hfs]
    rw [this]
    exact foldMerge_preserves mid fs m m hupd
      (fun k' l' hl' => ⟨l', hl', preserves_refl mid l'⟩) k l hl

/-- C6 witness: an update-merge adding `"b"` to key `"k"` preserves the
pre-existing entry. -/
theorem c6_never_deleted_witness :
    ∃ cur, lookupFacts (mergeFacts c6PriorMap
        (some [⟨"k", [⟨"b", 1, []⟩], true⟩]) "m1") "k" = some cur ∧
      Preserves "m1" [⟨"a", "m0", 1, FactStatus.active, none⟩] cur :=
  c6_entries_never_deleted_amended c6PriorMap [⟨"k", [⟨"b", 1, []⟩], true⟩] "m1"
    (by decide) "k" [⟨"a", "m0", 1, FactStatus.active, none⟩] rfl

/-! Replay idempotence machinery: when an update step is a no-op, and how
active counts of a fixed value text evolve through a merge. -/

theorem foldSupersede_noop (mid : String) :
    ∀ (ts : List String) (L : List FactValue),
      (∀ t ∈ ts, ∀ e ∈ L, isActiveMatch t e = false) →
      ts.foldl (fun acc t => applySupersede mid t acc) L = L
  | [], L, _ => rfl
  | t :: ts, L, h => by
    simp only [List.foldl_cons]
    rw [applySupersede_no_match mid (h t (List.mem_cons_self t ts))]
    exact foldSupersede_noop mid ts L
      (fun u hu e he => h u (List.mem_cons_of_mem t hu) e he)

theorem mergeValsUpdate_stable (mid : String) :
    ∀ (vals : List FactValueInput) (L : List FactValue),
      (∀ v ∈ vals, ∃ e ∈ L, e.value = v.value) →
      (∀ v ∈ vals, ∀ t ∈ v.supersedes, ∀ e ∈ L, isActiveMatch t e = false) →
      mergeValsUpdate mid L vals = L
  | [], L, _, _ => rfl
  | v :: vs, L, h1, h2 => by
    have hfold : v.supersedes.foldl (fun acc t => applySupersede mid t acc) L = L :=
      foldSupersede_noop mid v.supersedes L (h2 v (List.mem_cons_self v vs))
    have hdup : L.any (fun ev => ev.value == v.value) = true := by
      obtain ⟨e, he, hev⟩ := h1 v (List.mem_cons_self v vs)
      rw [List.any_eq_true]
      exact ⟨e, he, by rw [beq_iff_eq, hev]⟩
    have hstep : mergeNewValue mid L v = L := by
      simp only [mergeNewValue, hfold, hdup, if_true]
    show (v :: vs).foldl (mergeNewValue mid) L = L
    rw [List.foldl_cons, hstep]
    exact mergeValsUpdate_stable mid vs L
      (fun u hu => h1 u (List.mem_cons_of_mem v hu))
      (fun u hu => h2 u (List.mem_cons_of_mem v hu))

theorem activeCountT_cons (e : FactValue) (rest : List FactValue) (t : String) :
    activeCountT (e :: rest) t =
      activeCountT rest t + if isActiveMatch t e then 1 else 0 := by
  simp [activeCountT, List.countP_cons]

theorem activeCountT_append (l1 l2 : List FactValue) (t : String) :
    activeCountT (l1 ++ l2) t = activeCountT l1 t + activeCountT l2 t := by
  simp [activeCountT, List.countP_append]

theorem markSuperseded_not_match (mid t : String) (e : FactValue) :
    isActiveMatch t (markSuperseded mid e) = false := by
  simp [isActiveMatch, markSuperseded]

theorem applySupersede_count_le (mid u t : String) :
    ∀ l : List FactValue,
      activeCountT (applySupersede mid u l) t ≤ activeCountT l t
  | [] => Nat.le_refl 0
  | e :: rest => by
    by_cases h : isActiveMatch u e = true
    · have hres : applySupersede mid u (e :: rest) = markSuperseded mid e :: rest := by
        simp [applySupersede, h]
      rw [hres, activeCountT_cons, activeCountT_cons,
        markSuperseded_not_match mid t e]
      simp only [Bool.false_eq_true, if_false]
      split <;> omega
    · have h' : isActiveMatch u e = false := by simpa using h
      have hres : applySupersede mid u (e :: rest) =
          e :: applySupersede mid u rest := by
        simp [applySupersede, h']
      rw [hres, activeCountT_cons, activeCountT_cons]
      have := applySupersede_count_le mid u t rest
      omega

theorem applySupersede_count_self (mid t : String) :
    ∀ l : List FactValue, activeCountT l t ≤ 1 →
      activeCountT (applySupersede mid t l) t = 0
  | [], _ => rfl
  | e :: rest, h => by
    rw [activeCountT_cons] at h
    by_cases he : isActiveMatch t e = true
    · have hres : applySupersede mid t (e :: rest) = markSuperseded mid e :: rest := by
        simp [applySupersede, he]
      rw [hres, activeCountT_cons, markSuperseded_not_match mid t e]
      rw [he] at h
      simp only [if_true] at h
      simp only [Bool.false_eq_true, if_false]
      omega
    · have he' : isActiveMatch t e = false := by simpa using he
      have hres : applySupersede mid t (e :: rest) =
          e :: applySupersede mid t rest := by
        simp [applySupersede, he']
      rw [hres, activeCountT_cons, he']
      have hrest := applySupersede_count_self mid t rest (by
        rw [he'] at h
        simpa using h)
      simp [hrest]

theorem foldSupersede_count_le (mid t : String) :
    ∀ (ts : List String) (l : List FactValue),
      activeCountT (ts.foldl (fun acc u => applySupersede mid u acc) l) t ≤
        activeCountT l t
  | [], l => Nat.le_refl _
  | u :: ts, l => by
    simp only [List.foldl_cons]
    exact Nat.le_trans (foldSupersede_count_le mid t ts (applySupersede mid u l))
      (applySupersede_count_le mid u t l)

theorem foldSupersede_count_zero (mid t : String) :
    ∀ (ts : List String) (l : List FactValue), t ∈ ts →
      activeCountT l t ≤ 1 →
      activeCountT (ts.foldl (fun acc u => applySupersede mid u acc) l) t = 0
  | [], _, h, _ => absurd h (List.not_mem_nil t)
  | u :: ts, l, h, h1 => by
    simp only [List.foldl_cons]
    by_cases hu : u = t
    · subst hu
      have h0 : activeCountT (applySupersede mid u l) u = 0 :=
        applySupersede_count_self mid u l h1
      have := foldSupersede_count_le mid u ts (applySupersede mid u l)
      omega
    · rcases List.mem_cons.mp h with rfl | hmem
      · exact absurd rfl hu
      · exact foldSupersede_count_zero mid t ts (applySupersede mid u l) hmem
          (Nat.le_trans (applySupersede_count_le mid u t l) h1)

theorem singleton_fresh_count (mid t : String) (nv : FactValueInput)
    (h : nv.value ≠ t) :
    activeCountT [⟨nv.value, mid, nv.confidence, FactStatus.active, none⟩] t = 0 := by
  simp [activeCountT, List.countP_cons, isActiveMatch, h]

theorem mergeNewValue_count_le (mid t : String) (L : List FactValue)
    (nv : FactValueInput) (h : nv.value ≠ t) :
    activeCountT (mergeNewValue mid L nv) t ≤ activeCountT L t := by
  have hfold := foldSupersede_count_le mid t nv.supersedes L
  by_cases hd : ((nv.supersedes.foldl (fun acc u => applySupersede mid u acc) L).any
      (fun ev => ev.value == nv.value)) = true
  · simp only [mergeNewValue, hd, if_true]
    exact hfold
  · have hd' : ((nv.supersedes.foldl (fun acc u => applySupersede mid u acc) L).any
        (fun ev => ev.value == nv.value)) = false := by simpa using hd
    simp only [mergeNewValue, hd', Bool.false_eq_true, if_false]
    rw [activeCountT_append, singleton_fresh_count mid t nv h]
    omega

theorem mergeNewValue_count_zero (mid t : String) (L : List FactValue)
    (nv : FactValueInput) (h : nv.value ≠ t) (ht : t ∈ nv.supersedes)
    (h1 : activeCountT L t ≤ 1) :
    activeCountT (mergeNewValue mid L nv) t = 0 := by
  have hz := foldSupersede_count_zero mid t nv.supersedes L ht h1
  by_cases hd : ((nv.supersedes.foldl (fun acc u => applySupersede mid u acc) L).any
      (fun ev => ev.value == nv.value)) = true
  · simp only [mergeNewValue, hd, if_true]
    exact hz
  · have hd' : ((nv.supersedes.foldl (fun acc u => applySupersede mid u acc) L).any
        (fun ev => ev.value == nv.value)) = false := by simpa using hd
    simp only [mergeNewValue, hd', Bool.false_eq_true, if_false]
    rw [activeCountT_append, singleton_fresh_count mid t nv h, hz]

theorem mergeValsUpdate_count_le (mid t : String) :
    ∀ (vals : List FactValueInput) (L : List FactValue),
      (∀ v ∈ vals, v.value ≠ t) →
      activeCountT (mergeValsUpdate mid L vals) t ≤ activeCountT L t
  | [], _, _ => Nat.le_refl _
  | v :: vs, L, h => by
    show activeCountT ((v :: vs).foldl (mergeNewValue mid) L) t ≤ _
    rw [List.foldl_cons]
    exact Nat.le_trans
      (mergeValsUpdate_count_le mid t vs (mergeNewValue mid L v)
        (fun u hu => h u (List.mem_cons_of_mem v hu)))
      (mergeNewValue_count_le mid t L v (h v (List.mem_cons_self v vs)))

theorem mergeValsUpdate_count_zero (mid t : String) :
    ∀ (vals : List FactValueInput) (L : List FactValue),
      (∀ v ∈ vals, v.value ≠ t) → (∃ v ∈ vals, t ∈ v.supersedes) →
      activeCountT L t ≤ 1 →
      activeCountT (mergeValsUpdate mid L vals) t = 0
  | [], _, _, hex, _ => by
    obtain ⟨v, hv, _⟩ := hex
    cases hv
  | v :: vs, L, hvals, hex, h1 => by
    show activeCountT ((v :: vs).foldl (mergeNewValue mid) L) t = 0
    rw [List.foldl_cons]
    by_cases hin : t ∈ v.supersedes
    · have h0 := mergeNewValue_count_zero mid t L v
        (hvals v (List.mem_cons_self v vs)) hin h1
      have hle := mergeValsUpdate_count_le mid t vs (mergeNewValue mid L v)
        (fun u hu => hvals u (List.mem_cons_of_mem v hu))
      simp only [mergeValsUpdate] at hle
      omega
    · obtain ⟨u, hu, htu⟩ := hex
      rcases List.mem_cons.mp hu with rfl | hmem
      · exact absurd htu hin
      · exact mergeValsUpdate_count_zero mid t vs (mergeNewValue mid L v)
          (fun w hw => hvals w (List.mem_cons_of_mem v hw)) ⟨u, hmem, htu⟩
          (Nat.le_trans
            (mergeNewValue_count_le mid t L v (hvals v (List.mem_cons_self v vs)))
            h1)

theorem mem_value_mergeNewValue (mid : String) (L : List FactValue)
    (nv : FactValueInput) {x : String} (h : ∃ e ∈ L, e.value = x) :
    ∃ e ∈ mergeNewValue mid L nv, e.value = x := by
  have hmap := forall2_value_map (foldSupersede_forall2 mid nv.supersedes L)
  obtain ⟨e, heL, hev⟩ := h
  have hx : x ∈ (nv.supersedes.foldl
      (fun acc u => applySupersede mid u acc) L).map FactValue.value := by
    rw [hmap]
    exact hev ▸ List.mem_map_of_mem FactValue.value heL
  obtain ⟨e1, he1, hv1⟩ := List.mem_map.mp hx
  by_cases hd : ((nv.supersedes.foldl (fun acc u => applySupersede mid u acc) L).any
      (fun ev => ev.value == nv.value)) = true
  · simp only [mergeNewValue, hd, if_true]
    exact ⟨e1, he1, hv1⟩
  · have hd' : ((nv.supersedes.foldl (fun acc u => applySupersede mid u acc) L).any
        (fun ev => ev.value == nv.value)) = false := by simpa using hd
    simp only [mergeNewValue, hd', Bool.false_eq_true, if_false]
    exact ⟨e1, List.mem_append.mpr (Or.inl he1), hv1⟩

theorem mem_value_self_mergeNewValue (mid : String) (L : List FactValue)
    (nv : FactValueInput) :
    ∃ e ∈ mergeNewValue mid L nv, e.value = nv.value := by
  by_cases hd : ((nv.supersedes.foldl (fun acc u => applySupersede mid u acc) L).any
      (fun ev => ev.value == nv.value)) = true
  · simp only [mergeNewValue, hd, if_true]
    obtain ⟨e, he, hbe⟩ := List.any_eq_true.mp hd
    exact ⟨e, he, beq_iff_eq.mp hbe⟩
  · have hd' : ((nv.supersedes.foldl (fun acc u => applySupersede mid u acc) L).any
        (fun ev => ev.value == nv.value)) = false := by simpa using hd
    simp only [mergeNewValue, hd', Bool.false_eq_true, if_false]
    exact ⟨⟨nv.value, mid, nv.confidence, FactStatus.active, none⟩,
      List.mem_append.mpr (Or.inr (List.mem_singleton.mpr rfl)), rfl⟩

theorem mem_value_mergeValsUpdate_mono (mid : String) :
    ∀ (vals : List FactValueInput) (L : List FactValue) {x : String},
      (∃ e ∈ L, e.value = x) →
      ∃ e ∈ mergeValsUpdate mid L vals, e.value = x
  | [], _, _, h => h
  | v :: vs, L, x, h => by
    show ∃ e ∈ (v :: vs).foldl (mergeNewValue mid) L, e.value = x
    rw [List.foldl_cons]
    exact mem_value_mergeValsUpdate_mono mid vs (mergeNewValue mid L v)
      (mem_value_mergeNewValue mid L v h)

theorem mergeValsUpdate_mem (mid : String) :
    ∀ (vals : List FactValueInput) (L : List FactValue),
      ∀ v ∈ vals, ∃ e ∈ mergeValsUpdate mid L vals, e.value = v.value
  | [], _, v, hv => by cases hv
  | u :: us, L, v, hv => by
    show ∃ e ∈ (u :: us).foldl (mergeNewValue mid) L, e.value = v.value
    rw [List.foldl_cons]
    rcases List.mem_cons.mp hv with rfl | hmem
    · exact mem_value_mergeValsUpdate_mono mid us (mergeNewValue mid L v)
        (mem_value_self_mergeNewValue mid L v)
    · exact mergeValsUpdate_mem mid us (mergeNewValue mid L u) v hmem

/-- Replaying an update-merge is a no-op, provided no supersedes entry names
a value supplied for the same key and the starting list has at most one
active entry per value text. -/
theorem mergeValsUpdate_idem (mid : String) (vals : List FactValueInput)
    (L0 : List FactValue)
    (hsup : ∀ v ∈ vals, ∀ t ∈ v.supersedes, t ∉ vals.map FactValueInput.value)
    (hinit : ∀ t, activeCountT L0 t ≤ 1) :
    mergeValsUpdate mid (mergeValsUpdate mid L0 vals) vals =
      mergeValsUpdate mid L0 vals := by
  apply mergeValsUpdate_stable
  · exact mergeValsUpdate_mem mid vals L0
  · intro v hv t ht e he
    have hne : ∀ u ∈ vals, u.value ≠ t := by
      intro u hu hc
      exact hsup v hv t ht (hc ▸ List.mem_map_of_mem FactValueInput.value hu)
    have h0 : activeCountT (mergeValsUpdate mid L0 vals) t = 0 :=
      mergeValsUpdate_count_zero mid t vals L0 hne ⟨v, hv, ht⟩ (hinit t)
    have hall := List.countP_eq_zero.mp (by simpa [activeCountT] using h0) e he
    simpa using hall

/-- Replaying a fresh-creation merge through the update path is a no-op,
provided no supersedes entry names a supplied value for the same key. -/
theorem mergeValsUpdate_fresh_idem (mid : String) (vals : List FactValueInput)
    (hsup : ∀ v ∈ vals, ∀ t ∈ v.supersedes, t ∉ vals.map FactValueInput.value) :
    mergeValsUpdate mid (freshEntries vals mid) vals = freshEntries vals mid := by
  apply mergeValsUpdate_stable
  · intro v hv
    exact ⟨⟨v.value, mid, v.confidence, FactStatus.active, none⟩,
      List.mem_map_of_mem _ hv, rfl⟩
  · intro v hv t ht e he
    obtain ⟨u, hu, rfl⟩ := List.mem_map.mp he
    by_cases hc : u.value = t
    · exact absurd (hc ▸ List.mem_map_of_mem FactValueInput.value hu)
        (hsup v hv t ht)
    · simp [isActiveMatch, hc]

theorem lookupFacts_cons (p : String × List FactValue) (rest : FactMap)
    (k : String) :
    lookupFacts (p :: rest) k =
      if p.1 = k then some p.2 else lookupFacts rest k := by
  by_cases hp : p.1 = k
  · simp [lookupFacts, List.find?, hp]
  · have hb : (p.1 == k) = false := by simp [hp]
    simp [lookupFacts, List.find?, hb, hp]

theorem setFacts_self_id : ∀ (m : FactMap) {k : String} {l : List FactValue},
    lookupFacts m k = some l → setFacts m k l = m
  | [], k, l, h => by simp [lookupFacts] at h
  | p :: rest, k, l, h => by
    rw [lookupFacts_cons] at h
    by_cases hp : p.1 = k
    · rw [if_pos hp] at h
      have hl : p.2 = l := Option.some.inj h
      simp only [setFacts, if_pos hp]
      rw [← hp, ← hl]
    · rw [if_neg hp] at h
      simp only [setFacts, if_neg hp]
      rw [setFacts_self_id rest h]

theorem foldl_mergeFact_id (mid : String) {m : FactMap} :
    ∀ fs : List ExtractedFact, (∀ f ∈ fs, mergeFact mid m f = m) →
      fs.foldl (mergeFact mid) m = m
  | [], _ => rfl
  | f :: fs, h => by
    rw [List.foldl_cons, h f (List.mem_cons_self f fs),
      foldl_mergeFact_id mid fs (fun g hg => h g (List.mem_cons_of_mem f hg))]


/-- C4 counterexample: merging `c4SelfPayload` into an empty map takes the
fresh-creation path (no supersession), leaving both `"a"` and `"b"` active;
replaying the identical payload takes the update path, which supersedes
`"a"` — the active-value set changes, so the merge is not replay-idempotent
as claimed. -/
theorem c4_replay_counterexample :
    activeValues (mergeFacts [] (some c4SelfPayload) "m") "k" = ["a", "b"] ∧
    activeValues (mergeFacts (mergeFacts [] (some c4SelfPayload) "m")
      (some c4SelfPayload) "m") "k" = ["b"] := by
  decide

/-- C4 amended: the merge is idempotent under replay provided (i) no key
appears in two extracted facts of the payload, (ii) no supersedes entry
names a value text supplied for the same key, and (iii) the starting map has
at most one active entry per (key, value-text) pair (the documented
invariant): then applying `mergeFacts` twice with the same payload and
message id yields exactly the same fact map as applying it once — in
particular the same active value entries per key; the second application
appends no entry and changes no status. -/
theorem c4_replay_idempotent_amended (m : FactMap) (fs : List ExtractedFact)
    (mid : String)
    (hkeys : (fs.map ExtractedFact.key).Nodup)
    (hsup : ∀ f ∈ fs, ∀ v ∈ f.values, ∀ t ∈ v.supersedes,
      t ∉ f.values.map FactValueInput.value)
    (huniq : ∀ k l, lookupFacts m k = some l → ∀ t, activeCountT l t ≤ 1) :
    mergeFacts (mergeFacts m (some fs) mid) (some fs) mid =
      mergeFacts m (some fs) mid := by
  by_cases hfs : fs = []
  · subst hfs
    simp [mergeFacts]
  · have hm1 : mergeFacts m (some fs) mid = fs.foldl (mergeFact mid) m := by
      simp [mergeFacts, hfs]
    have hm2 : mergeFacts (fs.foldl (mergeFact mid) m) (some fs) mid =
        fs.foldl (mergeFact mid) (fs.foldl (mergeFact mid) m) := by
      simp [mergeFacts, hfs]
    rw [hm1, hm2]
    apply foldl_mergeFact_id
    intro f hf
    obtain ⟨pre, post, hsplit⟩ := List.append_of_mem hf
    have hnodup : f.key ∉ pre.map ExtractedFact.key ∧
        f.key ∉ post.map ExtractedFact.key := by
      rw [hsplit, List.map_append, List.map_cons] at hkeys
      have := List.nodup_middle.mp hkeys
      rw [List.nodup_cons] at this
      constructor
      · exact fun hc => this.1 (List.mem_append.mpr (Or.inl hc))
      · exact fun hc => this.1 (List.mem_append.mpr (Or.inr hc))
    have hsupf : ∀ v ∈ f.values, ∀ t ∈ v.supersedes,
        t ∉ f.values.map FactValueInput.value := hsup f hf
    -- the first pass, decomposed around f
    have hm1split : fs.foldl (mergeFact mid) m =
        post.foldl (mergeFact mid)
          (mergeFact mid (pre.foldl (mergeFact mid) m) f) := by
      rw [hsplit, List.foldl_append, List.foldl_cons]
    have hA : lookupFacts (pre.foldl (mergeFact mid) m) f.key =
        lookupFacts m f.key :=
      foldMergeFact_lookup_notin mid pre hnodup.1 m
    have hkey1 : lookupFacts (fs.foldl (mergeFact mid) m) f.key =
        lookupFacts (mergeFact mid (pre.foldl (mergeFact mid) m) f) f.key := by
      rw [hm1split]
      exact foldMergeFact_lookup_notin mid post hnodup.2 _
    rcases hl0 : lookupFacts m f.key with _ | l0
    · -- the key was absent: the first pass created it fresh
      have hB : lookupFacts (mergeFact mid (pre.foldl (mergeFact mid) m) f) f.key =
          some (freshEntries f.values mid) := by
        have hAnone : lookupFacts (pre.foldl (mergeFact mid) m) f.key = none := by
          rw [hA, hl0]
        simp only [mergeFact, hAnone]
        exact lookup_setFacts_self _ f.key _
      have hk1 : lookupFacts (fs.foldl (mergeFact mid) m) f.key =
          some (freshEntries f.values mid) := by rw [hkey1, hB]
      by_cases hu : f.isUpdate = true
      · simp only [mergeFact, hk1, hu, if_true,
          mergeValsUpdate_fresh_idem mid f.values hsupf]
        exact setFacts_self_id _ hk1
      · have hu' : f.isUpdate = false := by simpa using hu
        simp only [mergeFact, hk1, hu', Bool.false_eq_true, if_false]
        exact setFacts_self_id _ hk1
    · -- the key existed
      by_cases hu : f.isUpdate = true
      · have hB : lookupFacts (mergeFact mid (pre.foldl (mergeFact mid) m) f) f.key =
            some (mergeValsUpdate mid l0 f.values) := by
          have hAsome : lookupFacts (pre.foldl (mergeFact mid) m) f.key = some l0 := by
            rw [hA, hl0]
          simp only [mergeFact, hAsome, hu, if_true]
          exact lookup_setFacts_self _ f.key _
        have hk1 : lookupFacts (fs.foldl (mergeFact mid) m) f.key =
            some (mergeValsUpdate mid l0 f.values) := by rw [hkey1, hB]
        simp only [mergeFact, hk1, hu, if_true,
          mergeValsUpdate_idem mid f.values l0 hsupf (huniq f.key l0 hl0)]
        exact setFacts_self_id _ hk1
      · have hu' : f.isUpdate = false := by simpa using hu
        have hB : lookupFacts (mergeFact mid (pre.foldl (mergeFact mid) m) f) f.key =
            some (freshEntries f.values mid) := by
          have hAsome : lookupFacts (pre.foldl (mergeFact mid) m) f.key = some l0 := by
            rw [hA, hl0]
          simp only [mergeFact, hAsome, hu', Bool.false_eq_true, if_false]
          exact lookup_setFacts_self _ f.key _
        have hk1 : lookupFacts (fs.foldl (mergeFact mid) m) f.key =
            some (freshEntries f.values mid) := by rw [hkey1, hB]
        simp only [mergeFact, hk1, hu', Bool.false_eq_true, if_false]
        exact setFacts_self_id _ hk1

/-- C4 witness: a well-formed update payload (superseding only a pre-existing
value) replays to exactly the same map. -/
theorem c4_replay_witness :
    mergeFacts (mergeFacts [("k", [⟨"a", "m0", 1, FactStatus.active, none⟩])]
        (some [⟨"k", [⟨"b", 1, ["a"]⟩], true⟩]) "m1")
      (some [⟨"k", [⟨"b", 1, ["a"]⟩], true⟩]) "m1" =
      mergeFacts [("k", [⟨"a", "m0", 1, FactStatus.active, none⟩])]
        (some [⟨"k", [⟨"b", 1, ["a"]⟩], true⟩]) "m1" := by
  apply c4_replay_idempotent_amended
  · decide
  · decide
  · intro k l hl t
    have hlen : l.length = 1 := by
      rw [lookupFacts_cons] at hl
      by_cases hk : ("k" : String) = k
      · rw [if_pos hk] at hl
        injection hl with h2
        rw [← h2]
        rfl
      · rw [if_neg hk] at hl
        simp [lookupFacts] at hl
    calc activeCountT l t ≤ l.length := List.countP_le_length _
    _ = 1 := hlen

/-! Branch-list extension across loop iterations (claim C8). -/


theorem branchesExtend_refl (conv : String) (bs : List EphemeralBranch) :
    BranchesExtend conv bs bs :=
  ⟨Nat.le_refl _, fun _ _ _ => ⟨rfl, rfl⟩,
   fun j hj2 hge => absurd hj2 (Nat.not_lt.mpr hge)⟩

theorem branchesExtend_trans {conv : String} {a b c : List EphemeralBranch}
    (h1 : BranchesExtend conv a b) (h2 : BranchesExtend conv b c) :
    BranchesExtend conv a c := by
  obtain ⟨hl1, hp1, hn1⟩ := h1
  obtain ⟨hl2, hp2, hn2⟩ := h2
  refine ⟨Nat.le_trans hl1 hl2, ?_, ?_⟩
  · intro j hj hj2
    have hjb : j < b.length := Nat.lt_of_lt_of_le hj hl1
    exact ⟨((hp2 j hjb hj2).1).trans (hp1 j hj hjb).1,
           ((hp2 j hjb hj2).2).trans (hp1 j hj hjb).2⟩
  · intro j hj2 hge
    by_cases hjb : j < b.length
    · exact ((hp2 j hjb hj2).1).trans (hn1 j hjb hge)
    · exact hn2 j hj2 (Nat.not_lt.mp hjb)

theorem updateBranch_length (f : EphemeralBranch → EphemeralBranch)
    (cur : Option String) :
    ∀ bs : List EphemeralBranch, (updateBranch f cur bs).length = bs.length
  | [] => rfl
  | b :: rest => by
    by_cases h : (some b.id == cur) = true
    · simp [updateBranch, h]
    · have h' : (some b.id == cur) = false := by simpa using h
      simp [updateBranch, h', updateBranch_length f cur rest]

theorem updateBranch_get (f : EphemeralBranch → EphemeralBranch)
    (cur : Option String)
    (hf : ∀ b, (f b).id = b.id ∧ (f b).topic = b.topic) :
    ∀ (bs : List EphemeralBranch) (j : Nat) (hj : j < bs.length)
      (hj2 : j < (updateBranch f cur bs).length),
      ((updateBranch f cur bs).get ⟨j, hj2⟩).id = (bs.get ⟨j, hj⟩).id ∧
      ((updateBranch f cur bs).get ⟨j, hj2⟩).topic = (bs.get ⟨j, hj⟩).topic
  | [], j, hj, _ => absurd hj (by simp)
  | b :: rest, j, hj, hj2 => by
    by_cases h : (some b.id == cur) = true
    · have hres : updateBranch f cur (b :: rest) = f b :: rest := by
        simp [updateBranch, h]
      cases j with
      | zero =>
        rw [List.get_of_eq hres ⟨0, hj2⟩]
        exact ⟨(hf b).1, (hf b).2⟩
      | succ j' =>
        rw [List.get_of_eq hres ⟨j' + 1, hj2⟩]
        exact ⟨rfl, rfl⟩
    · have h' : (some b.id == cur) = false := by simpa using h
      have hres : updateBranch f cur (b :: rest) =
          b :: updateBranch f cur rest := by
        simp [updateBranch, h']
      cases j with
      | zero =>
        rw [List.get_of_eq hres ⟨0, hj2⟩]
        exact ⟨rfl, rfl⟩
      | succ j' =>
        rw [List.get_of_eq hres ⟨j' + 1, hj2⟩]
        have hj' : j' < rest.length := Nat.lt_of_succ_lt_succ hj
        have hj2' : j' < (updateBranch f cur rest).length := by
          rw [updateBranch_length]
          exact hj'
        exact updateBranch_get f cur hf rest j' hj' hj2'

theorem updateBranch_extend (conv : String) (f : EphemeralBranch → EphemeralBranch)
    (cur : Option String) (bs : List EphemeralBranch)
    (hf : ∀ b, (f b).id = b.id ∧ (f b).topic = b.topic) :
    BranchesExtend conv bs (updateBranch f cur bs) := by
  refine ⟨Nat.le_of_eq (updateBranch_length f cur bs).symm,
    fun j hj hj2 => updateBranch_get f cur hf bs j hj hj2, ?_⟩
  intro j hj2 hge
  rw [updateBranch_length] at hj2
  exact absurd hj2 (Nat.not_lt.mpr hge)

theorem branchesExtend_snoc (conv : String) (bs : List EphemeralBranch)
    (nb : EphemeralBranch)
    (h : nb.id = conv ++ "-branch-" ++ toString bs.length) :
    BranchesExtend conv bs (bs ++ [nb]) := by
  refine ⟨by simp, ?_, ?_⟩
  · intro j hj hj2
    rw [List.get_append j hj]
    exact ⟨rfl, rfl⟩
  · intro j hj2 hge
    have hlen : j = bs.length := by
      have : j < bs.length + 1 := by simpa using hj2
      omega
    subst hlen
    have hnb : (bs ++ [nb]).get ⟨bs.length, hj2⟩ = nb := by
      rw [List.get_eq_getElem, List.getElem_append_right (Nat.le_refl _)]
      simp
    rw [hnb, h]

theorem accumUsage_frame (outcome : ClassifyOutcome) (s : LoopState) :
    (accumUsage outcome s).messages = s.messages ∧
    (accumUsage outcome s).branches = s.branches ∧
    (accumUsage outcome s).currentBranchId = s.currentBranchId := by
  simp only [accumUsage]
  split <;> split <;> exact ⟨rfl, rfl, rfl⟩

theorem routeStep_spec (conv mid : String) (cls : Classification)
    (content : String) (s : LoopState) :
    (routeStep conv mid cls content s).1.messages = s.messages ∧
    BranchesExtend conv s.branches (routeStep conv mid cls content s).1.branches ∧
    (s.currentBranchId.isSome = true →
      (routeStep conv mid cls content s).1.currentBranchId.isSome = true) := by
  unfold routeStep
  by_cases hB : cls.action = RouteAction.BRANCH
  · rw [if_pos hB]
    exact ⟨rfl, branchesExtend_snoc conv s.branches _ rfl, fun _ => rfl⟩
  · rw [if_neg hB]
    by_cases hR : cls.action = RouteAction.ROUTE ∧ (jsStr cls.targetBranchId).isSome
    · rw [if_pos hR]
      rcases hfind : s.branches.find? (fun b => some b.id == cls.targetBranchId)
        with _ | tb
      · rw [hfind]
        exact ⟨rfl, branchesExtend_refl conv s.branches, fun h => h⟩
      · rw [hfind]
        exact ⟨rfl,
          updateBranch_extend conv _ _ s.branches (fun b => ⟨rfl, rfl⟩),
          fun _ => rfl⟩
    · rw [if_neg hR]
      rcases hfind : findBranch s.branches s.currentBranchId with _ | cb
      · exact ⟨rfl, branchesExtend_refl conv s.branches, fun h => h⟩
      · exact ⟨rfl,
          updateBranch_extend conv _ _ s.branches (fun b => ⟨rfl, rfl⟩),
          fun h => h⟩

theorem processMessage_spec (conv : String) (oracle : Nat → LLMReply)
    (i : Nat) (msg : InputMessage) (s : LoopState) :
    (∃ nm, (processMessage conv oracle i msg s).messages = s.messages ++ [nm]) ∧
    BranchesExtend conv s.branches (processMessage conv oracle i msg s).branches ∧
    (s.currentBranchId.isSome = true →
      (processMessage conv oracle i msg s).currentBranchId.isSome = true) := by
  unfold processMessage
  by_cases hA : msg.role = Role.assistant
  · rw [if_pos hA]
    exact ⟨⟨_, rfl⟩,
      updateBranch_extend conv _ _ s.branches (fun b => ⟨rfl, rfl⟩),
      fun h => h⟩
  · rw [if_neg hA]
    dsimp only
    set outcome := classifyRoute Role.user msg.content
      (s.branches.map (fun b =>
        BranchSummary.mk b.id b.topic b.context b.messageCount
          (some b.id == s.currentBranchId) (b.facts.map Prod.fst)))
      (oracle i) with houtcome
    have hacc := accumUsage_frame outcome s
    have hstep := routeStep_spec conv (conv ++ "-msg-" ++ toString i)
      outcome.classification msg.content (accumUsage outcome s)
    refine ⟨⟨EphemeralMessage.mk (conv ++ "-msg-" ++ toString i) Role.user
      msg.content
      (routeStep conv (conv ++ "-msg-" ++ toString i)
        outcome.classification msg.content (accumUsage outcome s)).2.1
      (routeStep conv (conv ++ "-msg-" ++ toString i)
        outcome.classification msg.content (accumUsage outcome s)).2.2
      outcome.classification.action, ?_⟩, ?_, ?_⟩
    · rw [hstep.1, hacc.1]
    · have h1 : BranchesExtend conv s.branches (accumUsage outcome s).branches := by
        rw [hacc.2.1]
        exact branchesExtend_refl conv s.branches
      have h2 := hstep.2.1
      have h3 := updateBranch_extend conv
        (fun b => { b with messageCount := b.messageCount + 1 })
        (routeStep conv (conv ++ "-msg-" ++ toString i) outcome.classification
          msg.content (accumUsage outcome s)).2.1
        (routeStep conv (conv ++ "-msg-" ++ toString i) outcome.classification
          msg.content (accumUsage outcome s)).1.branches
        (fun b => ⟨rfl, rfl⟩)
      exact branchesExtend_trans (branchesExtend_trans h1 h2) h3
    · intro h
      apply hstep.2.2
      rw [hacc.2.2]
      exact h

theorem runLoop_spec (conv : String) (oracle : Nat → LLMReply) :
    ∀ (msgs : List InputMessage) (i : Nat) (s : LoopState),
      (∃ suffix, (runLoop conv oracle i msgs s).messages = s.messages ++ suffix) ∧
      BranchesExtend conv s.branches (runLoop conv oracle i msgs s).branches ∧
      (s.currentBranchId.isSome = true →
        (runLoop conv oracle i msgs s).currentBranchId.isSome = true)
  | [], i, s =>
    ⟨⟨[], (List.append_nil _).symm⟩, branchesExtend_refl conv s.branches,
      fun h => h⟩
  | msg :: rest, i, s => by
    have hstep := processMessage_spec conv oracle i msg s
    have hrest := runLoop_spec conv oracle rest (i + 1)
      (processMessage conv oracle i msg s)
    refine ⟨?_, branchesExtend_trans hstep.2.1 hrest.2.1,
      fun h => hrest.2.2 (hstep.2.2 h)⟩
    obtain ⟨nm, hnm⟩ := hstep.1
    obtain ⟨suffix, hsuf⟩ := hrest.1
    exact ⟨nm :: suffix, by
      show (runLoop conv oracle (i + 1) rest (processMessage conv oracle i msg s)).messages = _
      rw [hsuf, hnm, List.append_assoc]
      rfl⟩


theorem processEphemeral_lastProcessedIndex (messages : List InputMessage)
    (conv : String) (prevOpt : Option EphemeralState) (cfg : Option String)
    (oracle : Nat → LLMReply) :
    (processEphemeralConversation messages conv prevOpt cfg oracle).lastProcessedIndex =
      messages.length :=
  rfl

theorem processEphemeral_some_unfold (messages : List InputMessage)
    (conv : String) (prev : EphemeralState) (cfg : Option String)
    (oracle : Nat → LLMReply) :
    processEphemeralConversation messages conv (some prev) cfg oracle =
      (let sEnd := runLoop conv oracle prev.lastProcessedIndex
        (messages.drop prev.lastProcessedIndex) (loopInit prev cfg)
      let final :=
        if sEnd.currentBranchId = none ∧ sEnd.branches = [] then
          { sEnd with
              branches := sEnd.branches ++
                [⟨conv ++ "-branch-" ++ toString (0 : Nat), "New Conversation",
                  some "new conversation", none, 0, [], some 0⟩],
              currentBranchId := some (conv ++ "-branch-" ++ toString (0 : Nat)) }
        else if sEnd.currentBranchId = none then
          { sEnd with currentBranchId := sEnd.branches.head?.map EphemeralBranch.id }
        else sEnd
      { branches := final.branches
        messages := final.messages
        currentBranchId := final.currentBranchId.getD ""
        currentBranchTopic := branchTopicOr final.branches final.currentBranchId "Unknown"
        lastProcessedIndex := messages.length
        routingTokenUsage := ⟨final.inputTokens, final.outputTokens, final.totalTokens⟩
        routingModel := final.routingModel }) :=
  rfl

theorem processEphemeral_some_fields (messages : List InputMessage)
    (conv : String) (prev : EphemeralState) (cfg : Option String)
    (oracle : Nat → LLMReply) :
    (processEphemeralConversation messages conv (some prev) cfg oracle).branches =
      (runLoop conv oracle prev.lastProcessedIndex
        (messages.drop prev.lastProcessedIndex) (loopInit prev cfg)).branches ∧
    (processEphemeralConversation messages conv (some prev) cfg oracle).messages =
      (runLoop conv oracle prev.lastProcessedIndex
        (messages.drop prev.lastProcessedIndex) (loopInit prev cfg)).messages := by
  have hcur : (runLoop conv oracle prev.lastProcessedIndex
      (messages.drop prev.lastProcessedIndex)
      (loopInit prev cfg)).currentBranchId.isSome = true :=
    (runLoop_spec conv oracle (messages.drop prev.lastProcessedIndex)
      prev.lastProcessedIndex (loopInit prev cfg)).2.2 rfl
  have hne : (runLoop conv oracle prev.lastProcessedIndex
      (messages.drop prev.lastProcessedIndex)
      (loopInit prev cfg)).currentBranchId ≠ none := by
    intro hc
    rw [hc] at hcur
    cases hcur
  rw [processEphemeral_some_unfold]
  dsimp only
  rw [if_neg (fun hc => hne hc.1), if_neg hne]
  exact ⟨rfl, rfl⟩

/-- C8: ephemeral branch ids are stable and deterministic across incremental
calls.  With `s1` the state from a first call and `s2` the state from a
second call on an extended message list: the first call records exactly the
processed length; a second call reads only the messages from
`lastProcessedIndex` onward (any list agreeing there and in length yields
the same result); every message of the first call is returned unchanged
(hence keeps its branch id); every branch of the first call keeps its
position, id and topic; and every newly created branch at position `j`
carries the derived id `conversationId ++ "-branch-" ++ j`. -/
theorem c8_ephemeral_branch_ids_stable (msgs ext : List InputMessage)
    (conv : String) (cfg : Option String) (oracle : Nat → LLMReply)
    (s1 s2 : EphemeralState)
    (h1 : s1 = processEphemeralConversation msgs conv none cfg oracle)
    (h2 : s2 = processEphemeralConversation (msgs ++ ext) conv (some s1) cfg oracle) :
    s1.lastProcessedIndex = msgs.length ∧
    (∀ other : List InputMessage, other.length = (msgs ++ ext).length →
      other.drop s1.lastProcessedIndex = (msgs ++ ext).drop s1.lastProcessedIndex →
      processEphemeralConversation other conv (some s1) cfg oracle = s2) ∧
    s2.messages.take s1.messages.length = s1.messages ∧
    s1.branches.length ≤ s2.branches.length ∧
    (∀ j (hj : j < s1.branches.length) (hj2 : j < s2.branches.length),
      (s2.branches.get ⟨j, hj2⟩).id = (s1.branches.get ⟨j, hj⟩).id ∧
      (s2.branches.get ⟨j, hj2⟩).topic = (s1.branches.get ⟨j, hj⟩).topic) ∧
    (∀ j (hj2 : j < s2.branches.length), s1.branches.length ≤ j →
      (s2.branches.get ⟨j, hj2⟩).id = conv ++ "-branch-" ++ toString j) := by
  have hlpi : s1.lastProcessedIndex = msgs.length := by
    rw [h1]
    exact processEphemeral_lastProcessedIndex msgs conv none cfg oracle
  have hfields := processEphemeral_some_fields (msgs ++ ext) conv s1 cfg oracle
  have hloop := runLoop_spec conv oracle
    ((msgs ++ ext).drop s1.lastProcessedIndex) s1.lastProcessedIndex
    (loopInit s1 cfg)
  have hs2br : s2.branches = (runLoop conv oracle s1.lastProcessedIndex
      ((msgs ++ ext).drop s1.lastProcessedIndex) (loopInit s1 cfg)).branches := by
    rw [h2]
    exact hfields.1
  have hs2msg : s2.messages = (runLoop conv oracle s1.lastProcessedIndex
      ((msgs ++ ext).drop s1.lastProcessedIndex) (loopInit s1 cfg)).messages := by
    rw [h2]
    exact hfields.2
  have hext : BranchesExtend conv s1.branches
      (runLoop conv oracle s1.lastProcessedIndex
        ((msgs ++ ext).drop s1.lastProcessedIndex) (loopInit s1 cfg)).branches :=
    hloop.2.1
  refine ⟨hlpi, ?_, ?_, ?_, ?_, ?_⟩
  · intro other hlen hdrop
    rw [h2, processEphemeral_some_unfold, processEphemeral_some_unfold, hdrop, hlen]
  · obtain ⟨suffix, hsuf⟩ := hloop.1
    rw [hs2msg, hsuf]
    exact List.take_left s1.messages suffix
  · rw [hs2br]
    exact hext.1
  · intro j hj hj2
    rw [List.get_of_eq hs2br ⟨j, hj2⟩]
    exact hext.2.1 j hj _
  · intro j hj2 hge
    rw [List.get_of_eq hs2br ⟨j, hj2⟩]
    exact hext.2.2 j _ hge

/-- C8 witness: a concrete two-step incremental run keeps the first call's
messages (and hence their branch ids) unchanged. -/
theorem c8_ephemeral_witness :
    (processEphemeralConversation [⟨Role.user, "a"⟩] "c" none none
      (fun _ => stayNoTopicReply)).lastProcessedIndex = 1 ∧
    (processEphemeralConversation ([⟨Role.user, "a"⟩] ++ [⟨Role.user, "b"⟩]) "c"
        (some (processEphemeralConversation [⟨Role.user, "a"⟩] "c" none none
          (fun _ => stayNoTopicReply))) none
        (fun _ => stayNoTopicReply)).messages.take
      (processEphemeralConversation [⟨Role.user, "a"⟩] "c" none none
        (fun _ => stayNoTopicReply)).messages.length =
      (processEphemeralConversation [⟨Role.user, "a"⟩] "c" none none
        (fun _ => stayNoTopicReply)).messages := by
  have h := c8_ephemeral_branch_ids_stable [⟨Role.user, "a"⟩] [⟨Role.user, "b"⟩]
    "c" none (fun _ => stayNoTopicReply) _ _ rfl rfl
  exact ⟨h.1, h.2.2.1⟩


/-- C1 witness: a concrete first message with a `STAY` decision and no topic
suggestion is forced to `BRANCH` with the content prefix as topic. -/
theorem c1_first_message_branch_witness :
    (classifyRoute Role.user "hi" [] stayNoTopicReply).classification.action =
        RouteAction.BRANCH ∧
    (classifyRoute Role.user "hi" [] stayNoTopicReply).classification.newBranchTopic =
      some (("hi" : String).take 100) := by
  refine ⟨(c1_first_message_branch_amended "hi" stayNoTopicReply).1, ?_⟩
  have h := (c1_first_message_branch_amended "hi" stayNoTopicReply).2.2 rfl
  simpa using h

end DriftOS
